import Mathlib

/-!
# Verification of `docs/sessions/claude_to_markdown.py`

Shallow embedding of the conversation-log-to-Markdown converter, and proofs
about its redaction filter, timestamp formatter, content renderers and
pipeline drivers.

Strings are modelled as `List Char`.  The Python regexes in
`redact_sensitive_data` use only ASCII character classes
(`[a-zA-Z0-9._%+-]` etc.); `\d` and the word-character test behind `\b`
are modelled with their ASCII meaning.
-/

/-- ASCII word character, as used by the regex `\b` boundary test. -/
def isWordChar (c : Char) : Bool := c.isAlpha || c.isDigit || c == '_'

/-- Character class `[a-zA-Z0-9._%+-]` of the email local part. -/
def isLocalChar (c : Char) : Bool :=
  c.isAlpha || c.isDigit || c == '.' || c == '_' || c == '%' || c == '+' || c == '-'

/-- Character class `[a-zA-Z0-9.-]` of the email domain part. -/
def isDomChar (c : Char) : Bool := c.isAlpha || c.isDigit || c == '.' || c == '-'

/-- Character class `[A-Za-z0-9_-]` of the OAuth client-secret body. -/
def isSecretChar (c : Char) : Bool := c.isAlpha || c.isDigit || c == '_' || c == '-'

/-- Character class `[a-z0-9]` in the OAuth client-id pattern. -/
def isLowerDigit (c : Char) : Bool := c.isLower || c.isDigit

/-- The regex `\b` test between an optional previous character and the next
character.  At the start of the input there is a boundary iff the next
character is a word character. -/
def wordBoundary (prev : Option Char) (c : Char) : Bool :=
  match prev with
  | none => isWordChar c
  | some p => isWordChar p != isWordChar c

/-- Length of the longest prefix of `s` whose characters all satisfy `f`
(the greedy consumption of a character class). -/
def runLen (f : Char → Bool) (s : List Char) : Nat := (s.takeWhile f).length

/-- Try `f k, f (k-1), ..., f 1` and return the first `some`.  This is the
backtracking order of a greedy `+` quantifier: longest candidate first. -/
def descFind (f : Nat → Option Nat) : Nat → Option Nat
  | 0 => none
  | k + 1 =>
    match f (k + 1) with
    | some r => some r
    | none => descFind f k

/-- Literal fragment `.apps.googleusercontent.com` of the client-id regex. -/
def gcidTail : List Char := ".apps.googleusercontent.com".toList

/-- Matcher for `\d+-[a-z0-9]+\.apps\.googleusercontent\.com` at the start
of `s`; returns the number of characters the (leftmost, greedy) match
consumes.  Backtracking over `\d+` is vacuous (a shorter digit run is
followed by a digit, never `-`), so only the maximal digit run is tried;
`[a-z0-9]+` genuinely backtracks against the literal tail. -/
def tryGcid (s : List Char) : Option Nat :=
  let d := runLen Char.isDigit s
  if d = 0 then none
  else
    match s.drop d with
    | [] => none
    | c :: rest2 =>
      if c == '-' then
        let r := runLen isLowerDigit rest2
        descFind
          (fun k =>
            if gcidTail.isPrefixOf (rest2.drop k) then some (d + 1 + k + gcidTail.length)
            else none)
          r
      else none

/-- Literal prefix `GOCSPX-` of the client-secret regex. -/
def gsecHead : List Char := "GOCSPX-".toList

/-- Matcher for `GOCSPX-[A-Za-z0-9_-]{28}` at the start of `s`. -/
def trySecret (s : List Char) : Option Nat :=
  if gsecHead.isPrefixOf s then
    let rest := s.drop 7
    if 28 ≤ rest.length ∧ (rest.take 28).all isSecretChar then some 35 else none
  else none

/-- Matcher for a literal string at the start of `s` (the semantics of one
step of Python `str.replace`). -/
def tryLit (lit : List Char) (s : List Char) : Option Nat :=
  if lit.isPrefixOf s then some lit.length else none

/-- The three allow-listed domains appearing in the negative lookahead
`(?!example\.com|domain\.com|test\.com)`. -/
def allowDoms : List (List Char) :=
  ["example.com".toList, "domain.com".toList, "test.com".toList]

/-- The negative lookahead of the email regex: true iff the text after `@`
starts with one of the allow-listed domain literals (in which case the
match attempt fails). -/
def lookaheadHit (rest2 : List Char) : Bool :=
  allowDoms.any (fun d => d.isPrefixOf rest2)

/-- `\b` after the top-level-domain letters: the preceding character is a
letter (a word character), so there is a boundary iff the text ends or the
next character is not a word character. -/
def tldBoundary (rest2 : List Char) (i : Nat) : Bool :=
  match rest2.drop i with
  | [] => true
  | c :: _ => !isWordChar c

/-- Matcher for the email regex
`\b[a-zA-Z0-9._%+-]+@(?!example\.com|domain\.com|test\.com)[a-zA-Z0-9.-]+\.[a-zA-Z]{2,}\b`
at the start of `s`, given the character preceding `s` (needed by `\b`).

Greedy runs with vacuous backtracking are taken maximal: the local part
must be followed by `@` (a shorter run ends at a local character), and a
shorter top-level-domain run ends at a letter, failing the final `\b`.
The domain part `[a-zA-Z0-9.-]+` genuinely backtracks (longest first)
against `\.[a-zA-Z]{2,}\b`. -/
def tryEmail (prev : Option Char) (s : List Char) : Option Nat :=
  match s with
  | [] => none
  | c :: _ =>
    if !isLocalChar c then none
    else if !wordBoundary prev c then none
    else
      let l := runLen isLocalChar s
      match s.drop l with
      | [] => none
      | a :: rest2 =>
        if a == '@' then
          if lookaheadHit rest2 then none
          else
            let m := runLen isDomChar rest2
            descFind
              (fun j =>
                match rest2.drop j with
                | [] => none
                | dot :: restTld =>
                  if dot == '.' then
                    let t := runLen Char.isAlpha restTld
                    if 2 ≤ t ∧ tldBoundary rest2 (j + 1 + t) then some (l + 1 + j + 1 + t)
                    else none
                  else none)
              m
        else none

/-- Fuel-indexed version of the substitution pass `scanRepl` below;
structural recursion on the fuel keeps the function kernel-evaluable.
With fuel at least the input length the fuel never runs out, since every
step consumes at least one character. -/
def scanReplF (try_ : Option Char → List Char → Option Nat) (repl : List Char) :
    Nat → Option Char → List Char → List Char
  | 0, _, s => s
  | _ + 1, _, [] => []
  | fuel + 1, prev, c :: rest =>
    match try_ prev (c :: rest) with
    | some (n + 1) => repl ++ scanReplF try_ repl fuel ((c :: rest).get? n) (rest.drop n)
    | _ => c :: scanReplF try_ repl fuel (some c) rest

/-- One left-to-right substitution pass: at each position try the matcher
(with the previous original character as `\b` context); on a match of
`n+1` characters emit the replacement and continue after the match (the
new context is the last matched original character), otherwise copy one
character.  This is the common semantics of `re.sub` for these patterns
and of Python `str.replace`. -/
def scanRepl (try_ : Option Char → List Char → Option Nat) (repl : List Char)
    (prev : Option Char) (s : List Char) : List Char :=
  scanReplF try_ repl s.length prev s

/-- The fuel argument of `scanReplF` is irrelevant once it is at least the
input length. -/
theorem scanReplF_irrel (try_ : Option Char → List Char → Option Nat) (repl : List Char) :
    ∀ f₁ f₂ prev s, s.length ≤ f₁ → s.length ≤ f₂ →
      scanReplF try_ repl f₁ prev s = scanReplF try_ repl f₂ prev s := by
  intro f₁
  induction f₁ with
  | zero =>
    intro f₂ prev s hs₁ _
    have : s = [] := List.length_eq_zero.mp (Nat.le_zero.mp hs₁)
    subst this
    cases f₂ <;> rfl
  | succ f ih =>
    intro f₂ prev s hs₁ hs₂
    cases s with
    | nil => cases f₂ <;> rfl
    | cons c rest =>
      cases f₂ with
      | zero => exact absurd hs₂ (by simp)
      | succ g =>
        simp only [List.length_cons, Nat.add_le_add_iff_right] at hs₁ hs₂
        simp only [scanReplF]
        cases h : try_ prev (c :: rest) with
        | none =>
          exact congrArg _ (ih g (some c) rest hs₁ hs₂)
        | some n =>
          cases n with
          | zero => exact congrArg _ (ih g (some c) rest hs₁ hs₂)
          | succ m =>
            refine congrArg _ (ih g ((c :: rest).get? m) (rest.drop m) ?_ ?_) <;>
              calc (rest.drop m).length ≤ rest.length := by simp [List.length_drop]
                _ ≤ _ := by assumption

/-- Step equation for `scanRepl` on a nonempty input. -/
theorem scanRepl_cons (try_ : Option Char → List Char → Option Nat) (repl : List Char)
    (prev : Option Char) (c : Char) (rest : List Char) :
    scanRepl try_ repl prev (c :: rest) =
      match try_ prev (c :: rest) with
      | some (n + 1) =>
          repl ++ scanRepl try_ repl ((c :: rest).get? n) (rest.drop n)
      | _ => c :: scanRepl try_ repl (some c) rest := by
  show scanReplF try_ repl (rest.length + 1) prev (c :: rest) = _
  simp only [scanReplF]
  cases h : try_ prev (c :: rest) with
  | none => rfl
  | some n =>
    cases n with
    | zero => rfl
    | succ m =>
      exact congrArg _ (scanReplF_irrel try_ repl _ _ _ _
        (by simp [List.length_drop]) (le_refl _))

/-- `scanRepl` on the empty input. -/
theorem scanRepl_nil (try_ : Option Char → List Char → Option Nat) (repl : List Char)
    (prev : Option Char) : scanRepl try_ repl prev [] = [] := rfl

/-- Replacement token for matched client ids. -/
def gcidRepl : List Char := "[REDACTED-GOOGLE-CLIENT-ID]".toList

/-- Replacement token for matched client secrets. -/
def gsecRepl : List Char := "[REDACTED-GOOGLE-CLIENT-SECRET]".toList

/-- Replacement token for matched email addresses. -/
def emailRepl : List Char := "[REDACTED-EMAIL]".toList

/-- The hard-coded allow-listed address. -/
def noreplyL : List Char := "noreply@anthropic.com".toList

/-- The temporary protection sentinel. -/
def sentinelL : List Char := "<<<PROTECTED_NOREPLY>>>".toList

/-- `redact_sensitive_data` on character lists: the two OAuth substitution
passes, then the protect / redact-emails / restore bracketing. -/
def redactL (t : List Char) : List Char :=
  let t1 := scanRepl (fun _ s => tryGcid s) gcidRepl none t
  let t2 := scanRepl (fun _ s => trySecret s) gsecRepl none t1
  let t3 := scanRepl (fun _ s => tryLit noreplyL s) sentinelL none t2
  let t4 := scanRepl tryEmail emailRepl none t3
  scanRepl (fun _ s => tryLit sentinelL s) noreplyL none t4

/-- `redact_sensitive_data` on Lean strings. -/
def redact_sensitive_data (s : String) : String := ⟨redactL s.data⟩

/-! ## Pattern shapes

Boolean predicates recognising strings shaped like the three sensitive
patterns, used to state which substrings of an input count as sensitive. -/

/-- `s` is exactly a client-id-shaped string
`\d+-[a-z0-9]+\.apps\.googleusercontent\.com`. -/
def isGcidShape (s : List Char) : Bool :=
  let d := runLen Char.isDigit s
  decide (1 ≤ d) &&
    match s.drop d with
    | '-' :: rest2 =>
      let k := rest2.length - gcidTail.length
      decide (1 ≤ k) && (rest2.take k).all isLowerDigit && rest2.drop k == gcidTail
    | _ => false

/-- `s` is exactly a client-secret-shaped string `GOCSPX-[A-Za-z0-9_-]{28}`. -/
def isSecretShape (s : List Char) : Bool :=
  gsecHead.isPrefixOf s && s.length == 35 && (s.drop 7).all isSecretChar

/-- `s` is exactly an email-shaped string: a nonempty local part over
`[a-zA-Z0-9._%+-]`, an `@`, a nonempty domain over `[a-zA-Z0-9.-]`, a dot
and a top-level label of at least two letters. -/
def isEmailShape (s : List Char) : Bool :=
  let l := runLen isLocalChar s
  decide (1 ≤ l) &&
    match s.drop l with
    | '@' :: rest2 =>
      let r := rest2.reverse
      let t := runLen Char.isAlpha r
      decide (2 ≤ t) &&
        (match r.drop t with
         | '.' :: dom => !dom.isEmpty && dom.all isDomChar
         | _ => false)
    | _ => false

/-- The domain of an email-shaped string (the text after its unique `@`). -/
def emailDomain (s : List Char) : List Char := s.drop (runLen isLocalChar s + 1)

/-- `s` is an email-shaped string that the redactor is meant to replace:
its domain is not exactly one of the allow-listed domains and it is not
the hard-coded allow-listed address. -/
def isBadEmailShape (s : List Char) : Bool :=
  isEmailShape s && !(allowDoms.any (fun d => d == emailDomain s)) && !(s == noreplyL)

/-- Some contiguous substring of `s` satisfies `f`. -/
def hasSubSat (f : List Char → Bool) (s : List Char) : Bool :=
  (List.range (s.length + 1)).any fun i =>
    (List.range (s.length - i + 1)).any fun l => f ((s.drop i).take l)

/-- `s` contains a sensitive-pattern-shaped substring (client id, client
secret, or a non-allow-listed email). -/
def hasSensitiveShape (s : List Char) : Bool :=
  hasSubSat isGcidShape s || hasSubSat isSecretShape s || hasSubSat isBadEmailShape s

/-- **C1** (counterexample): in `"user@gmail.comfoo@example.com"` the
allow-listed address `foo@example.com` occurs, yet after redaction it no
longer occurs: the greedy email match `user@gmail.comfoo` consumes its
local part, so the claim that every occurrence of an allow-listed address
survives unchanged is false. -/
theorem c1_counterexample :
    ("foo@example.com".toList <:+: "user@gmail.comfoo@example.com".toList) ∧
    ("foo@example.com".toList <:+: "[REDACTED-EMAIL]@example.com".toList → False) ∧
    redact_sensitive_data "user@gmail.comfoo@example.com" = "[REDACTED-EMAIL]@example.com" := by
  refine ⟨?_, ?_, rfl⟩ <;> decide

/-- **C2** (counterexample): `"foo@example.comm"` is email-shaped with
domain `example.comm`, which is none of the allow-listed domains, and it
is not the hard-coded address; the claim says it is replaced by the
placeholder, but the negative lookahead `(?!example\.com|...)` already
fails on the prefix `example.com` of `example.comm`, so the code leaves
the string completely unchanged. -/
theorem c2_counterexample :
    isBadEmailShape "foo@example.comm".toList = true ∧
    redact_sensitive_data "foo@example.comm" = "foo@example.comm" ∧
    ("[REDACTED-EMAIL]".toList <:+: (redact_sensitive_data "foo@example.comm").toList
      → False) := by
  refine ⟨?_, rfl, ?_⟩ <;> decide

/-- **C4** (counterexample): the sentinel `<<<PROTECTED_NOREPLY>>>`
contains no sensitive-pattern-shaped substring, yet redaction rewrites it
to `noreply@anthropic.com`, so `redact` is not the identity on all
pattern-free inputs. -/
theorem c4_counterexample :
    hasSensitiveShape "<<<PROTECTED_NOREPLY>>>".toList = false ∧
    redact_sensitive_data "<<<PROTECTED_NOREPLY>>>" ≠ "<<<PROTECTED_NOREPLY>>>" := by
  refine ⟨?_, ?_⟩ <;> decide

/-- **C10**: a literal occurrence of the internal sentinel
`<<<PROTECTED_NOREPLY>>>` in the input — text that matches no sensitive
pattern — is rewritten to `noreply@anthropic.com` by the restore step,
which replaces every occurrence of the sentinel, not only the ones the
protect step introduced; shown both for the bare sentinel and for one
embedded in surrounding text. -/
theorem c10_sentinel_rewritten :
    redact_sensitive_data "<<<PROTECTED_NOREPLY>>>" = "noreply@anthropic.com" ∧
    redact_sensitive_data "see <<<PROTECTED_NOREPLY>>> here"
      = "see noreply@anthropic.com here" ∧
    hasSensitiveShape "see <<<PROTECTED_NOREPLY>>> here".toList = false ∧
    "<<<PROTECTED_NOREPLY>>>" ≠ "noreply@anthropic.com" := by
  refine ⟨rfl, rfl, ?_, ?_⟩ <;> decide

/-! ## Python values

A model of the JSON-decodable Python values the converter manipulates
(strings, arbitrary-precision integers, booleans, `None`, lists, dicts).
Floats are outside the modelled universe.  The mutual inductive (instead
of `List PyVal` nesting) keeps all recursions structural and so
kernel-evaluable. -/

mutual
inductive PyVal : Type where
  | str (s : String)
  | int (n : Int)
  | bool (b : Bool)
  | noneVal
  | list (items : PyList)
  | dict (entries : PyDict)

inductive PyList : Type where
  | nil
  | cons (head : PyVal) (tail : PyList)

inductive PyDict : Type where
  | nil
  | cons (key : String) (val : PyVal) (tail : PyDict)
end

/-- Python truthiness of a value (`if value:`). -/
def pyTruthy : PyVal → Bool
  | .str s => !(s == "")
  | .int n => !(n == 0)
  | .bool b => b
  | .noneVal => false
  | .list .nil => false
  | .list _ => true
  | .dict .nil => false
  | .dict _ => true

/-- Dictionary lookup (`d[k]` / the found case of `d.get(k)`). -/
def dictGet (k : String) : PyDict → Option PyVal
  | .nil => none
  | .cons key v tail => if key == k then some v else dictGet k tail

/-- `d.get(k, default)`. -/
def dictGetD (d : PyDict) (k : String) (default : PyVal) : PyVal :=
  (dictGet k d).getD default

/-- `d[k] = v` on a Python dict: replace the value of an existing key in
place, otherwise append the new key at the end. -/
def dictSet (k : String) (v : PyVal) : PyDict → PyDict
  | .nil => .cons k v .nil
  | .cons key w tail =>
    if key == k then .cons key v tail else .cons key w (dictSet k v tail)

/-- The keys of a dict, in order. -/
def dictKeys : PyDict → List String
  | .nil => []
  | .cons k _ tail => k :: dictKeys tail

/-- Decimal digit character. -/
def digitChar (n : Nat) : Char := "0123456789".toList.getD n '0'

/-- Fuel-indexed reversed decimal digits of a natural number. -/
def natToRev : Nat → Nat → List Char
  | 0, _ => []
  | f + 1, n =>
    if n < 10 then [digitChar n] else digitChar (n % 10) :: natToRev f (n / 10)

/-- Decimal representation of a natural number. -/
def natStr (n : Nat) : String := ⟨(natToRev (n + 1) n).reverse⟩

/-- Python `str`/`repr` of an integer. -/
def intStr (n : Int) : String :=
  if n < 0 then "-" ++ natStr n.natAbs else natStr n.toNat

/-- Lower-case hexadecimal digit character. -/
def hexChar (n : Nat) : Char := "0123456789abcdef".toList.getD n '0'

/-- Four lower-case hex digits of `n < 0x10000`. -/
def hex4 (n : Nat) : List Char :=
  [hexChar (n / 4096 % 16), hexChar (n / 256 % 16), hexChar (n / 16 % 16), hexChar (n % 16)]

/-- Python `repr` escaping of one string character (inside quotes `q`):
backslash and the quote character are backslash-escaped, newline, return
and tab use their mnemonics, other control characters use `\xhh`. -/
def pyReprChar (q : Char) (c : Char) : List Char :=
  if c == '\\' then ['\\', '\\']
  else if c == q then ['\\', q]
  else if c == '\n' then ['\\', 'n']
  else if c == '\x0d' then ['\\', 'r']
  else if c == '\t' then ['\\', 't']
  else if c.toNat < 0x20 || c.toNat == 0x7f then
    '\\' :: 'x' :: [hexChar (c.toNat / 16 % 16), hexChar (c.toNat % 16)]
  else [c]

/-- Python `repr` of a string: single-quoted, except double-quoted when
the string contains a single quote but no double quote. -/
def pyReprStr (s : String) : String :=
  let q : Char :=
    if s.data.contains '\'' && !(s.data.contains '"') then '"' else '\''
  ⟨q :: (s.data.flatMap (pyReprChar q)) ++ [q]⟩

mutual
/-- Python `repr` of a value (used by `str` inside containers). -/
def pyRepr : PyVal → String
  | .str s => pyReprStr s
  | .int n => intStr n
  | .bool b => if b then "True" else "False"
  | .noneVal => "None"
  | .list items => "[" ++ pyReprList items ++ "]"
  | .dict entries => "\x7b" ++ pyReprDict entries ++ "\x7d"

/-- Comma-joined `repr`s of list elements. -/
def pyReprList : PyList → String
  | .nil => ""
  | .cons x .nil => pyRepr x
  | .cons x (.cons y tail) => pyRepr x ++ ", " ++ pyReprList (.cons y tail)

/-- Comma-joined `repr key: repr value` pairs of dict entries. -/
def pyReprDict : PyDict → String
  | .nil => ""
  | .cons k v .nil => pyReprStr k ++ ": " ++ pyRepr v
  | .cons k v (.cons k2 v2 tail) =>
      pyReprStr k ++ ": " ++ pyRepr v ++ ", " ++ pyReprDict (.cons k2 v2 tail)
end

/-- Python `str` of a value: the string itself for strings, `repr`
otherwise (as used by f-string interpolation). -/
def pyStr : PyVal → String
  | .str s => s
  | v => pyRepr v

/-! ## `json.dumps(..., indent=2)` and `json.loads` -/

/-- `n` spaces. -/
def spaces (n : Nat) : String := ⟨List.replicate n ' '⟩

/-- `json.dumps` escaping of one character (`ensure_ascii` default):
quote, backslash and the control mnemonics are backslash-escaped, other
control characters and all non-ASCII characters become `\uXXXX` (a
surrogate pair for astral characters). -/
def jsonEscChar (c : Char) : List Char :=
  if c == '"' then ['\\', '"']
  else if c == '\\' then ['\\', '\\']
  else if c == '\n' then ['\\', 'n']
  else if c == '\t' then ['\\', 't']
  else if c == '\x0d' then ['\\', 'r']
  else if c == '\x08' then ['\\', 'b']
  else if c == '\x0c' then ['\\', 'f']
  else if c.toNat < 0x20 then '\\' :: 'u' :: hex4 c.toNat
  else if c.toNat < 0x7f then [c]
  else if c.toNat < 0x10000 then '\\' :: 'u' :: hex4 c.toNat
  else
    let m := c.toNat - 0x10000
    ('\\' :: 'u' :: hex4 (0xD800 + m / 0x400)) ++ '\\' :: 'u' :: hex4 (0xDC00 + m % 0x400)

/-- JSON string literal for `s`. -/
def jsonQuote (s : String) : String := ⟨'"' :: s.data.flatMap jsonEscChar ++ ['"']⟩

mutual
/-- `json.dumps(v, indent=2)` at nesting level `lvl`. -/
def dumpsAt : Nat → PyVal → String
  | _, .str s => jsonQuote s
  | _, .int n => intStr n
  | _, .bool b => if b then "true" else "false"
  | _, .noneVal => "null"
  | _, .list .nil => "[]"
  | lvl, .list (.cons x tail) =>
      "[\n" ++ dumpsList (lvl + 1) (.cons x tail) ++ "\n" ++ spaces (2 * lvl) ++ "]"
  | _, .dict .nil => "\x7b\x7d"
  | lvl, .dict (.cons k v tail) =>
      "\x7b\n" ++ dumpsDict (lvl + 1) (.cons k v tail) ++ "\n" ++ spaces (2 * lvl) ++ "\x7d"

/-- Indented, `",\n"`-separated list elements. -/
def dumpsList : Nat → PyList → String
  | _, .nil => ""
  | lvl, .cons x .nil => spaces (2 * lvl) ++ dumpsAt lvl x
  | lvl, .cons x (.cons y tail) =>
      spaces (2 * lvl) ++ dumpsAt lvl x ++ ",\n" ++ dumpsList lvl (.cons y tail)

/-- Indented, `",\n"`-separated `"key": value` pairs. -/
def dumpsDict : Nat → PyDict → String
  | _, .nil => ""
  | lvl, .cons k v .nil => spaces (2 * lvl) ++ jsonQuote k ++ ": " ++ dumpsAt lvl v
  | lvl, .cons k v (.cons k2 v2 tail) =>
      spaces (2 * lvl) ++ jsonQuote k ++ ": " ++ dumpsAt lvl v ++ ",\n" ++
        dumpsDict lvl (.cons k2 v2 tail)
end

/-- `json.dumps(v, indent=2)`. -/
def jsonDumps (v : PyVal) : String := dumpsAt 0 v

/-- JSON whitespace skipping. -/
def skipWs (s : List Char) : List Char :=
  s.dropWhile (fun c => c == ' ' || c == '\t' || c == '\n' || c == '\x0d')

/-- Hex digit value (both cases accepted, as by `json.loads`). -/
def parseHexDigit (c : Char) : Option Nat :=
  if c.isDigit then some (c.toNat - 48)
  else if 'a' ≤ c && c ≤ 'f' then some (c.toNat - 87)
  else if 'A' ≤ c && c ≤ 'F' then some (c.toNat - 55)
  else none

/-- Four hex digits. -/
def parse4Hex : List Char → Option (Nat × List Char)
  | a :: b :: c :: d :: rest => do
    let h₁ ← parseHexDigit a
    let h₂ ← parseHexDigit b
    let h₃ ← parseHexDigit c
    let h₄ ← parseHexDigit d
    pure (((h₁ * 16 + h₂) * 16 + h₃) * 16 + h₄, rest)
  | _ => none

/-- Decode a `\uXXXX` escape body (after the `\u`), combining a
surrogate pair into one character; a high surrogate escape must be
followed by a low surrogate escape (the lone-surrogate strings Python
would produce are outside the modelled universe). -/
def parseUEsc (rest1 : List Char) : Option (Char × List Char) := do
  let (h, rest2) ← parse4Hex rest1
  if h < 0xD800 || 0xE000 ≤ h then pure (Char.ofNat h, rest2)
  else if h < 0xDC00 then
    match rest2 with
    | b1 :: b2 :: rest3 =>
      if b1 == '\\' && b2 == 'u' then do
        let (lo, rest4) ← parse4Hex rest3
        if 0xDC00 ≤ lo && lo < 0xE000 then
          pure (Char.ofNat (0x10000 + (h - 0xD800) * 0x400 + (lo - 0xDC00)), rest4)
        else none
      else none
    | _ => none
  else none

/-- Body of a JSON string literal after the opening quote (fuelled).
Escapes are decoded via `parseUEsc` for `\u`. -/
def parseStrBody : Nat → List Char → Option (List Char × List Char)
  | 0, _ => none
  | _ + 1, [] => none
  | f + 1, c :: rest =>
    if c == '"' then some ([], rest)
    else if c == '\\' then
      match rest with
      | [] => none
      | e :: rest1 =>
        let simple : Option Char :=
          if e == '"' then some '"'
          else if e == '\\' then some '\\'
          else if e == '/' then some '/'
          else if e == 'n' then some '\n'
          else if e == 't' then some '\t'
          else if e == 'r' then some '\x0d'
          else if e == 'b' then some '\x08'
          else if e == 'f' then some '\x0c'
          else none
        match simple with
        | some d => do
          let (cs, r) ← parseStrBody f rest1
          pure (d :: cs, r)
        | none =>
          if e == 'u' then do
            let (d, rest2) ← parseUEsc rest1
            let (cs, r) ← parseStrBody f rest2
            pure (d :: cs, r)
          else none
    else if c.toNat < 0x20 then none
    else do
      let (cs, r) ← parseStrBody f rest
      pure (c :: cs, r)

/-- A JSON integer literal: optional minus, no leading zero.  (Fractions
and exponents — floats — are outside the modelled universe.) -/
def parseIntLit (s : List Char) : Option (Int × List Char) :=
  let neg := s.headD ' ' == '-'
  let s₁ := if neg then s.tail else s
  let ds := s₁.takeWhile Char.isDigit
  let rest := s₁.dropWhile Char.isDigit
  if ds.isEmpty then none
  else if ds.length > 1 && ds.headD '0' == '0' then none
  else if rest.headD ' ' == '.' || rest.headD ' ' == 'e' || rest.headD ' ' == 'E' then none
  else
    let n : Nat := ds.foldl (fun acc c => acc * 10 + (c.toNat - 48)) 0
    some (if neg then -(n : Int) else (n : Int), rest)

mutual
/-- JSON value at the head of `s` (no leading whitespace), fuelled. -/
def parseVal : Nat → List Char → Option (PyVal × List Char)
  | 0, _ => none
  | f + 1, s =>
    match s with
    | [] => none
    | c :: rest =>
      if c == '"' then do
        let (cs, r) ← parseStrBody (rest.length + 1) rest
        pure (.str ⟨cs⟩, r)
      else if c == '[' then
        match skipWs rest with
        | [] => none
        | d :: r =>
          if d == ']' then some (.list .nil, r)
          else do
            let (items, r2) ← parseArrItems f (d :: r)
            pure (.list items, r2)
      else if c == '\x7b' then
        match skipWs rest with
        | [] => none
        | d :: r =>
          if d == '\x7d' then some (.dict .nil, r)
          else do
            let (entries, r2) ← parseObjItems f (d :: r) .nil
            pure (.dict entries, r2)
      else if c == 'n' then
        if "ull".toList.isPrefixOf rest then some (.noneVal, rest.drop 3) else none
      else if c == 't' then
        if "rue".toList.isPrefixOf rest then some (.bool true, rest.drop 3) else none
      else if c == 'f' then
        if "alse".toList.isPrefixOf rest then some (.bool false, rest.drop 4) else none
      else do
        let (n, rest2) ← parseIntLit (c :: rest)
        pure (.int n, rest2)

/-- One or more array items (at the first item, whitespace skipped),
up to and including the closing bracket. -/
def parseArrItems : Nat → List Char → Option (PyList × List Char)
  | 0, _ => none
  | f + 1, s => do
    let (v, r) ← parseVal f s
    match skipWs r with
    | [] => none
    | c :: r2 =>
      if c == ',' then do
        let (tail, r3) ← parseArrItems f (skipWs r2)
        pure (.cons v tail, r3)
      else if c == ']' then pure (.cons v .nil, r2)
      else none

/-- One or more object entries (at the first key, whitespace skipped),
up to and including the closing brace; duplicate keys resolve as in
Python (`d[k] = v`, later value wins, first position kept). -/
def parseObjItems : Nat → List Char → PyDict → Option (PyDict × List Char)
  | 0, _, _ => none
  | f + 1, s, acc =>
    match s with
    | [] => none
    | q :: rest =>
      if q == '"' then do
        let (cs, r) ← parseStrBody (rest.length + 1) rest
        match skipWs r with
        | [] => none
        | c :: r2 =>
          if c == ':' then do
            let (v, r3) ← parseVal f (skipWs r2)
            let acc2 := dictSet ⟨cs⟩ v acc
            match skipWs r3 with
            | [] => none
            | d :: r4 =>
              if d == ',' then parseObjItems f (skipWs r4) acc2
              else if d == '\x7d' then pure (acc2, r4)
              else none
          else none
      else none
end

/-- `json.loads`: parse one JSON document, requiring only whitespace
after it. -/
def jsonLoads (s : String) : Option PyVal :=
  match parseVal (s.length + 1) (skipWs s.data) with
  | some (v, rest) => if (skipWs rest).isEmpty then some v else none
  | none => none

/-! ## `format_timestamp`

`datetime.fromisoformat` is standard-library code; it is modelled from its
documented grammar (`YYYY-MM-DD`, then optionally any single separator
character, `HH`, optionally `:MM`, `:SS` and a fraction of exactly three
or six digits, optionally a `±HH:MM[:SS]` offset), with full date/time
range validation. -/

/-- Parsed date-time fields (the offset fields record the parsed offset;
`strftime` performs no zone conversion, so formatting ignores them). -/
structure PyDT : Type where
  year : Nat
  month : Nat
  day : Nat
  hour : Nat
  minute : Nat
  second : Nat
  offSign : Bool
  offMinutes : Nat

/-- Gregorian leap year. -/
def isLeap (y : Nat) : Bool := (y % 4 == 0 && y % 100 != 0) || y % 400 == 0

/-- Days in a month. -/
def daysInMonth (y m : Nat) : Nat :=
  if m = 2 then (if isLeap y then 29 else 28)
  else if m = 4 || m = 6 || m = 9 || m = 11 then 30
  else 31

/-- Exactly `k` decimal digits, returning their value and the rest. -/
def readDigits (k : Nat) (s : List Char) : Option (Nat × List Char) :=
  let ds := s.take k
  if ds.length = k && ds.all Char.isDigit then
    some (ds.foldl (fun acc c => acc * 10 + (c.toNat - 48)) 0, s.drop k)
  else none

/-- Optional `:NN` group. -/
def readColonPair (s : List Char) : Option (Nat × List Char) :=
  match s with
  | ':' :: rest => readDigits 2 rest
  | _ => none

/-- Parse the `[+-]HH:MM[:SS]` offset and require end of input; also
accepts end of input directly (no offset). -/
def parseIsoOffset (s : List Char) : Option (Bool × Nat) :=
  match s with
  | [] => some (false, 0)
  | sign :: rest =>
    if sign == '+' || sign == '-' then
      match readDigits 2 rest with
      | some (oh, r1) =>
        match readColonPair r1 with
        | some (om, r2) =>
          let r3 := match readColonPair r2 with
            | some (os, r3') => if os ≤ 59 then some r3' else none
            | none => some r2
          match r3 with
          | some rest4 =>
            if rest4.isEmpty && oh ≤ 23 && om ≤ 59 then
              some (sign == '-', oh * 60 + om)
            else none
          | none => none
        | none => none
      | none => none
    else none

/-- Parse `HH[:MM[:SS[.fff[fff]]]]` then an optional offset, requiring end
of input; the fraction (exactly three or six digits) is only permitted
after a seconds group. -/
def parseIsoTime (y mo d : Nat) (s : List Char) : Option PyDT :=
  match readDigits 2 s with
  | none => none
  | some (hh, r1) =>
    let (mi, r2) := match readColonPair r1 with
      | some (mi, r2') => (mi, r2')
      | none => (0, r1)
    let (ss, secPresent, r3) := match readColonPair r2 with
      | some (ss, r3') => (ss, true, r3')
      | none => (0, false, r2)
    let r4 := match r3 with
      | '.' :: fr =>
        let fd := fr.takeWhile Char.isDigit
        if secPresent && (fd.length = 3 || fd.length = 6) then some (fr.drop fd.length)
        else none
      | _ => some r3
    match r4 with
    | none => none
    | some r5 =>
      if hh ≤ 23 && mi ≤ 59 && ss ≤ 59 then
        match parseIsoOffset r5 with
        | some (sgn, om) => some ⟨y, mo, d, hh, mi, ss, sgn, om⟩
        | none => none
      else none

/-- `datetime.fromisoformat` (modelled). -/
def parseIso (s : List Char) : Option PyDT :=
  match readDigits 4 s with
  | none => none
  | some (y, r1) =>
    match r1 with
    | '-' :: r2 =>
      match readDigits 2 r2 with
      | none => none
      | some (mo, r3) =>
        match r3 with
        | '-' :: r4 =>
          match readDigits 2 r4 with
          | none => none
          | some (d, r5) =>
            if 1 ≤ y && 1 ≤ mo && mo ≤ 12 && 1 ≤ d && d ≤ daysInMonth y mo then
              match r5 with
              | [] => some ⟨y, mo, d, 0, 0, 0, false, 0⟩
              | _ :: r6 => parseIsoTime y mo d r6
            else none
        | _ => none
    | _ => none

/-- Zero-padded decimal of width `w`. -/
def padNum (w n : Nat) : String :=
  let d := natStr n
  ⟨List.replicate (w - d.length) '0'⟩ ++ d

/-- `dt.strftime('%Y-%m-%d %H:%M:%S')` on the parsed wall-clock fields
(no conversion to another zone). -/
def fmtDT (dt : PyDT) : String :=
  padNum 4 dt.year ++ "-" ++ padNum 2 dt.month ++ "-" ++ padNum 2 dt.day ++ " " ++
    padNum 2 dt.hour ++ ":" ++ padNum 2 dt.minute ++ ":" ++ padNum 2 dt.second

/-- Python `str.replace` (every occurrence, left to right). -/
def replaceAllL (a b s : List Char) : List Char :=
  scanRepl (fun _ t => tryLit a t) b none s

/-- `format_timestamp`: replace every `Z` by `+00:00`, attempt the ISO
parse, format on success, and fall back to the unchanged argument on any
failure. -/
def format_timestamp (ts : String) : String :=
  match parseIso (replaceAllL "Z".toList "+00:00".toList ts.data) with
  | some dt => fmtDT dt
  | none => ts

/-- `format_timestamp` applied to an arbitrary value: the bare `except`
returns the argument unchanged when `.replace` fails on a non-string. -/
def formatTimestampVal : PyVal → PyVal
  | .str s => .str (format_timestamp s)
  | v => v

/-! ## Content renderers and the line renderer -/

/-- The Python runtime errors a line's processing can raise (opaque to the
drivers, which catch every exception alike). -/
inductive PyErr : Type where
  | attributeError
  | typeError

/-- `format_tool_use`: tool name as an inline-code label, then the input
mapping as an indented JSON fence when truthy. -/
def format_tool_use (tool : PyDict) : String :=
  let name := dictGetD tool "name" (.str "Unknown")
  let toolInput := dictGetD tool "input" (.dict .nil)
  let md := "**Tool:** `" ++ pyStr name ++ "`\n\n"
  if pyTruthy toolInput then
    md ++ "**Input:**\n```json\n" ++ jsonDumps toolInput ++ "\n```\n"
  else md

/-- Collect the parts of a structured `tool_result` content list: dict
items of type `text` contribute their `text` field (which must be a
string, or the final `'\n'.join` raises `TypeError`), other dict items
contribute their `str` representation, non-dict items are skipped. -/
def resultParts : PyList → Except PyErr (List String)
  | .nil => .ok []
  | .cons item tail =>
    match item with
    | .dict d =>
      let isText := match dictGetD d "type" .noneVal with
        | .str t => t == "text"
        | _ => false
      if isText then
        match dictGetD d "text" (.str "") with
        | .str s => do
          let rest ← resultParts tail
          pure (s :: rest)
        | _ => .error .typeError
      else do
        let rest ← resultParts tail
        pure (pyStr item :: rest)
    | _ => resultParts tail

/-- `format_tool_result`: the result `content` (a string used verbatim, a
list collected via `resultParts` and joined with newlines, or any other
value via `str`) inside a plain code fence under a `Result:` heading. -/
def format_tool_result (result : PyDict) : Except PyErr String :=
  let content := dictGetD result "content" (.str "")
  match content with
  | .list items => do
    let parts ← resultParts items
    pure ("**Result:**\n```\n" ++ String.intercalate "\n" parts ++ "\n```\n")
  | other => .ok ("**Result:**\n```\n" ++ pyStr other ++ "\n```\n")

/-- Segment-by-segment rendering of a structured message content list:
`text` contributes its text, non-empty `thinking` a collapsible block,
`tool_use` / `tool_result` their formatters, unknown dict kinds their
`str` representation; non-dict items are skipped. -/
def contentParts : PyList → Except PyErr (List String)
  | .nil => .ok []
  | .cons item tail =>
    match item with
    | .dict d =>
      let tag := dictGetD d "type" (.str "text")
      let part : Except PyErr (Option String) :=
        match tag with
        | .str t =>
          if t == "text" then
            match dictGetD d "text" (.str "") with
            | .str s => .ok (some s)
            | _ => .error .typeError
          else if t == "thinking" then
            let thinking := dictGetD d "thinking" (.str "")
            if pyTruthy thinking then
              .ok (some ("<details>\n<summary>💭 Thinking</summary>\n\n" ++
                pyStr thinking ++ "\n</details>"))
            else .ok none
          else if t == "tool_use" then .ok (some (format_tool_use d))
          else if t == "tool_result" then
            match format_tool_result d with
            | .ok s => .ok (some s)
            | .error e => .error e
          else .ok (some (pyStr item))
        | _ => .ok (some (pyStr item))
      match part with
      | .error e => .error e
      | .ok p => do
        let rest ← contentParts tail
        pure (match p with
          | some s => s :: rest
          | none => rest)
    | _ => contentParts tail

/-- `format_message_content`: strings verbatim, lists via `contentParts`
joined with blank lines, anything else via `str`. -/
def format_message_content : PyVal → Except PyErr String
  | .str s => .ok s
  | .list items => do
    let parts ← contentParts items
    pure (String.intercalate "\n\n" parts)
  | other => .ok (pyStr other)

/-- `process_jsonl_line`: decode one line (decode failure returns `None`),
drop `file-history-snapshot` records, render `user`/`assistant` records as
a header, optional metadata block, body and rule; other types return
`None`.  Attribute errors of the dynamic field accesses are surfaced as
`PyErr` for the drivers to catch. -/
def process_jsonl_line (line : String) : Except PyErr (Option String) :=
  match jsonLoads line with
  | none => .ok none
  | some data =>
    match data with
    | .dict d =>
      let entryType := dictGetD d "type" (.str "unknown")
      let isUser := match entryType with
        | .str t => t == "user"
        | _ => false
      let isAssistant := match entryType with
        | .str t => t == "assistant"
        | _ => false
      match entryType with
      | .str "file-history-snapshot" => .ok none
      | _ =>
        if isUser || isAssistant then
          match dictGetD d "message" (.dict .nil) with
          | .dict md => do
            let role := dictGetD md "role" entryType
            let content := dictGetD md "content" (.str "")
            let timestamp := dictGetD d "timestamp" (.str "")
            let icon := match role with
              | .str "user" => "👤"
              | _ => "🤖"
            let roleStr ← match role with
              | .str r => Except.ok r
              | _ => Except.error PyErr.attributeError
            let header0 := "## " ++ icon ++ " " ++ roleStr.toUpper
            let header :=
              if pyTruthy timestamp then
                header0 ++ " — " ++ pyStr (formatTimestampVal timestamp)
              else header0
            let formatted ← format_message_content content
            let modelMeta : List String :=
              if isAssistant then
                let model := dictGetD md "model" (.str "")
                if pyTruthy model then ["**Model:** `" ++ pyStr model ++ "`"] else []
              else []
            let usageMeta ← (if isAssistant then
                let usage := dictGetD md "usage" (.dict .nil)
                if pyTruthy usage then
                  match usage with
                  | .dict ud =>
                    Except.ok ["**Tokens:** " ++ pyStr (dictGetD ud "input_tokens" (.int 0)) ++
                      " in / " ++ pyStr (dictGetD ud "output_tokens" (.int 0)) ++ " out"]
                  | _ => Except.error PyErr.attributeError
                else Except.ok []
              else Except.ok ([] : List String))
            let cwd := dictGetD d "cwd" (.str "")
            let cwdMeta : List String :=
              if pyTruthy cwd then ["**Working Dir:** `" ++ pyStr cwd ++ "`"] else []
            let metadata := modelMeta ++ usageMeta ++ cwdMeta
            let mid :=
              if metadata.isEmpty then "" else String.intercalate "\n" metadata ++ "\n\n"
            pure (some (header ++ "\n\n" ++ mid ++ formatted ++ "\n\n---\n"))
          | _ => .error .attributeError
        else .ok none
    | _ => .error .attributeError

/-! ## Pipeline drivers -/

/-- Python `str.strip` whitespace. -/
def isPySpace (c : Char) : Bool :=
  c == ' ' || c == '\t' || c == '\n' || c == '\x0d' || c == '\x0b' || c == '\x0c'

/-- Python `line.strip()`. -/
def pyStrip (s : String) : String :=
  ⟨((s.data.dropWhile isPySpace).reverse.dropWhile isPySpace).reverse⟩

/-- The block a single input line contributes, if any: blank lines are
skipped, processing failures contribute nothing, and a rendered block is
written only when truthy (non-empty). -/
def lineRendered (line : String) : Option String :=
  let t := pyStrip line
  if t == "" then none
  else
    match process_jsonl_line t with
    | .ok (some md) => if md == "" then none else some md
    | _ => none

/-- Whether a line's processing raises (and is warned about). -/
def lineWarned (line : String) : Bool :=
  pyStrip line != "" &&
    match process_jsonl_line (pyStrip line) with
    | .error _ => true
    | _ => false

/-- The per-line driver loop shared by the two modes, starting at 1-based
line number `i`: returns the rendered blocks in order, the entry count,
and the warned line numbers. -/
def driveLines : Nat → List String → List String × Nat × List Nat
  | _, [] => ([], 0, [])
  | i, line :: rest =>
    let r := driveLines (i + 1) rest
    let t := pyStrip line
    if t == "" then r
    else
      match process_jsonl_line t with
      | .ok (some md) => if md == "" then r else (md :: r.1, r.2.1 + 1, r.2.2)
      | .ok none => r
      | .error _ => (r.1, r.2.1, i :: r.2.2)

/-- The fixed output header (the generation timestamp `now` is an input of
the model). -/
def headerBlock (now srcName : String) : String :=
  "# Claude Code Conversation Log\n\n" ++ "**Source:** `" ++ srcName ++ "` \n" ++
    "**Generated:** " ++ now ++ "\n\n" ++ "---\n\n"

/-- Convert mode: header followed by the blocks of the input lines, in
input order. -/
def convert_jsonl_to_markdown (now srcName : String) (lines : List String) : String :=
  headerBlock now srcName ++ String.join (driveLines 1 lines).1

/-- Import mode: redact the whole input text, split on newlines, then run
the same per-line loop. -/
def import_session (now srcName content : String) : String :=
  headerBlock now srcName ++
    String.join (driveLines 1 ((redact_sensitive_data content).splitOn "\n")).1

/-! ## C5: the timestamp formatter -/

/-- **C5**: `format_timestamp` parses its argument as ISO-8601 after
rewriting `Z` to `+00:00`; on success it formats the parsed wall-clock
fields as `YYYY-MM-DD HH:MM:SS` (no zone conversion), in particular on
`"2024-01-15T10:30:00Z"`, and any string the parse rejects is returned
unchanged. -/
theorem c5_format_timestamp :
    format_timestamp "2024-01-15T10:30:00Z" = "2024-01-15 10:30:00" ∧
    (∀ s : String, parseIso (replaceAllL "Z".toList "+00:00".toList s.data) = none →
      format_timestamp s = s) ∧
    (∀ (s : String) (dt : PyDT),
      parseIso (replaceAllL "Z".toList "+00:00".toList s.data) = some dt →
      format_timestamp s = fmtDT dt) := by
  refine ⟨rfl, ?_, ?_⟩
  · intro s h
    unfold format_timestamp
    rw [h]
  · intro s dt h
    unfold format_timestamp
    rw [h]

/-- Witness for C5 at concrete inputs: a malformed timestamp passes
through unchanged, and a parseable one with an offset is formatted. -/
theorem c5_format_timestamp_witness :
    format_timestamp "not-a-date" = "not-a-date" ∧
    format_timestamp "2024-12-31T23:59:59+05:30" =
      fmtDT ⟨2024, 12, 31, 23, 59, 59, false, 330⟩ := by
  exact ⟨c5_format_timestamp.2.1 "not-a-date" rfl,
    c5_format_timestamp.2.2 "2024-12-31T23:59:59+05:30" ⟨2024, 12, 31, 23, 59, 59, false, 330⟩ rfl⟩

/-! ## C6: structured tool-result contents -/

/-- The contribution a structured `tool_result` content list makes to the
code fence, item by item, in order: `text`-kind dict items contribute
their `text` field, every other dict item its `str` representation; the
code skips non-dict items (a string-kind contribution of a non-string
`text` field only arises when the join raises, which `textFieldsOk`
below rules out). -/
def resultContribs : PyList → List String
  | .nil => []
  | .cons item tail =>
    match item with
    | .dict d =>
      let isText := match dictGetD d "type" .noneVal with
        | .str t => t == "text"
        | _ => false
      if isText then
        (match dictGetD d "text" (.str "") with
         | .str s => s
         | v => pyStr v) :: resultContribs tail
      else pyStr item :: resultContribs tail
    | _ => resultContribs tail

/-- Every `text`-kind dict item of the list carries a string (or absent)
`text` field, so the newline join cannot raise. -/
def textFieldsOk : PyList → Bool
  | .nil => true
  | .cons item tail =>
    (match item with
     | .dict d =>
       let isText := match dictGetD d "type" .noneVal with
         | .str t => t == "text"
         | _ => false
       if isText then
         match dictGetD d "text" (.str "") with
         | .str _ => true
         | _ => false
       else true
     | _ => true) && textFieldsOk tail

/-- Spine induction for `PyList` (the mutual recursor is inconvenient for
proofs that only walk the list). -/
theorem pyListInd {motive : PyList → Prop} (hnil : motive .nil)
    (hcons : ∀ h t, motive t → motive (.cons h t)) : ∀ l, motive l
  | .nil => hnil
  | .cons h t => hcons h t (pyListInd hnil hcons t)

/-- Spine induction for `PyDict`. -/
theorem pyDictInd {motive : PyDict → Prop} (hnil : motive .nil)
    (hcons : ∀ k v t, motive t → motive (.cons k v t)) : ∀ d, motive d
  | .nil => hnil
  | .cons k v t => hcons k v t (pyDictInd hnil hcons t)

/-- Under `textFieldsOk`, collecting the parts succeeds and produces
exactly the ordered contributions. -/
theorem resultParts_eq_contribs : ∀ (items : PyList), textFieldsOk items = true →
    resultParts items = .ok (resultContribs items)
  | .nil, _ => rfl
  | .cons item tail, h => by
    have ih := resultParts_eq_contribs tail
    cases item with
    | dict d =>
      simp only [textFieldsOk, Bool.and_eq_true] at h
      obtain ⟨h₁, h₂⟩ := h
      simp only [resultParts, resultContribs]
      by_cases ht : (match dictGetD d "type" PyVal.noneVal with
        | .str t => t == "text"
        | _ => false) = true
      · simp only [ht, if_true]
        simp only [ht, if_true] at h₁
        cases hx : dictGetD d "text" (.str "") with
        | str s => simp [ih h₂, hx, Except.bind]
        | int n => rw [hx] at h₁; exact absurd h₁ (by simp)
        | bool b => rw [hx] at h₁; exact absurd h₁ (by simp)
        | noneVal => rw [hx] at h₁; exact absurd h₁ (by simp)
        | list l => rw [hx] at h₁; exact absurd h₁ (by simp)
        | dict e => rw [hx] at h₁; exact absurd h₁ (by simp)
      · simp only [Bool.not_eq_true] at ht
        simp [ht, ih h₂, Except.bind]
    | str s =>
      simp only [textFieldsOk, Bool.and_eq_true, true_and] at h
      simpa [resultParts, resultContribs] using ih h
    | int n =>
      simp only [textFieldsOk, Bool.and_eq_true, true_and] at h
      simpa [resultParts, resultContribs] using ih h
    | bool b =>
      simp only [textFieldsOk, Bool.and_eq_true, true_and] at h
      simpa [resultParts, resultContribs] using ih h
    | noneVal =>
      simp only [textFieldsOk, Bool.and_eq_true, true_and] at h
      simpa [resultParts, resultContribs] using ih h
    | list l =>
      simp only [textFieldsOk, Bool.and_eq_true, true_and] at h
      simpa [resultParts, resultContribs] using ih h

/-- **C6** (counterexample): a structured result content whose only
sub-item is the bare string `"hello"` — not a dict — contributes nothing:
the fence is empty rather than containing the sub-item's string
representation, so the claim that no sub-item contributes nothing is
false. -/
theorem c6_counterexample :
    format_tool_result (.cons "content" (.list (.cons (.str "hello") .nil)) .nil) =
      .ok "**Result:**\n```\n\n```\n" ∧
    ("hello".toList <:+: "**Result:**\n```\n\n```\n".toList → False) := by
  exact ⟨rfl, by decide⟩

/-- **C6** (amended): for a `tool_result` whose `content` is an ordered
sequence, the rendered fence joins, with single newlines and in sequence
order, the `text` of every dict sub-item of kind `text` and the `str`
representation of every other dict sub-item; non-dict sub-items are
skipped.  (The `textFieldsOk` guard keeps the join from raising.) -/
theorem c6_amended (result : PyDict) (items : PyList)
    (hc : dictGetD result "content" (.str "") = .list items)
    (ht : textFieldsOk items = true) :
    format_tool_result result =
      .ok ("**Result:**\n```\n" ++ String.intercalate "\n" (resultContribs items)
        ++ "\n```\n") := by
  simp only [format_tool_result, hc]
  rw [resultParts_eq_contribs items ht]
  rfl

/-- Witness for C6 (amended) at a concrete mixed content list: a text
item, an unknown dict item and a skipped bare string. -/
theorem c6_amended_witness :
    format_tool_result (.cons "content" (.list
      (.cons (.dict (.cons "type" (.str "text") (.cons "text" (.str "T1") .nil)))
      (.cons (.str "skipped")
      (.cons (.dict (.cons "type" (.str "image") .nil)) .nil)))) .nil) =
      .ok ("**Result:**\n```\nT1\n\x7b'type': 'image'\x7d\n```\n") := by
  have := c6_amended
    (.cons "content" (.list
      (.cons (.dict (.cons "type" (.str "text") (.cons "text" (.str "T1") .nil)))
      (.cons (.str "skipped")
      (.cons (.dict (.cons "type" (.str "image") .nil)) .nil)))) .nil)
    (.cons (.dict (.cons "type" (.str "text") (.cons "text" (.str "T1") .nil)))
      (.cons (.str "skipped")
      (.cons (.dict (.cons "type" (.str "image") .nil)) .nil)))
    rfl rfl
  simpa using this

/-! ## C7, C8: the per-line driver loop -/

/-- Full characterization of the driver loop: the blocks are the ordered
per-line renderings, the count is their number, and the warnings are
exactly the 1-based numbers of the lines whose processing raises. -/
theorem driveLines_eq : ∀ (lines : List String) (i : Nat),
    driveLines i lines =
      (lines.filterMap lineRendered,
       (lines.filterMap lineRendered).length,
       (List.enumFrom i lines).filterMap
         (fun p => if lineWarned p.2 then some p.1 else none))
  | [], _ => rfl
  | line :: rest, i => by
    have ih := driveLines_eq rest (i + 1)
    by_cases h0 : pyStrip line == ""
    · have hr : lineRendered line = none := by simp [lineRendered, h0]
      have hw : lineWarned line = false := by
        simp only [lineWarned, bne, Bool.not_eq_true']
        simp only [h0, Bool.not_true, Bool.false_and]
      simp [driveLines, ih, hr, hw, List.enumFrom, h0]
    · cases hp : process_jsonl_line (pyStrip line) with
      | error e =>
        have hr : lineRendered line = none := by simp [lineRendered, h0, hp]
        have hw : lineWarned line = true := by
          simp [lineWarned, bne, h0, hp]
        simp [driveLines, ih, hr, hw, List.enumFrom, h0, hp]
      | ok opt =>
        have hw : lineWarned line = false := by
          simp [lineWarned, bne, h0, hp]
        cases opt with
        | none =>
          have hr : lineRendered line = none := by simp [lineRendered, h0, hp]
          simp [driveLines, ih, hr, hw, List.enumFrom, h0, hp]
        | some md =>
          by_cases hm : md == ""
          · have hr : lineRendered line = none := by simp [lineRendered, h0, hp, hm]
            simp [driveLines, ih, hr, hw, List.enumFrom, h0, hp, hm]
          · have hr : lineRendered line = some md := by simp [lineRendered, h0, hp, hm]
            simp [driveLines, ih, hr, hw, List.enumFrom, h0, hp, hm]

/-- **C7**: in both operating modes a line whose processing raises is
reported under its 1-based line number, contributes no block, is not
counted, and leaves every other line's rendering unchanged: the blocks
and count of `pre ++ bad :: post` are exactly those of `pre` and `post`
combined, and both drivers' outputs are the header plus the per-line
renderings of their respective line sequences. -/
theorem c7_per_line_isolation :
    (∀ (pre post : List String) (bad : String), lineWarned bad = true →
      (pre.length + 1) ∈ (driveLines 1 (pre ++ bad :: post)).2.2 ∧
      lineRendered bad = none ∧
      (driveLines 1 (pre ++ bad :: post)).1 =
        (driveLines 1 pre).1 ++ (driveLines 1 post).1 ∧
      (driveLines 1 (pre ++ bad :: post)).2.1 =
        (driveLines 1 pre).2.1 + (driveLines 1 post).2.1) ∧
    (∀ now srcName lines, convert_jsonl_to_markdown now srcName lines =
      headerBlock now srcName ++ String.join (lines.filterMap lineRendered)) ∧
    (∀ now srcName content, import_session now srcName content =
      headerBlock now srcName ++ String.join
        (((redact_sensitive_data content).splitOn "\n").filterMap lineRendered))
  := by
  refine ⟨?_, ?_, ?_⟩
  · intro pre post bad hw
    have hr : lineRendered bad = none := by
      simp only [lineWarned, Bool.and_eq_true] at hw
      obtain ⟨h0, hp⟩ := hw
      cases hp' : process_jsonl_line (pyStrip bad) with
      | error e =>
        simp only [lineRendered, bne, Bool.not_eq_true'] at h0 ⊢
        simp [Bool.not_eq_true] at h0
        simp [h0, hp']
      | ok opt => rw [hp'] at hp; cases opt <;> simp at hp
    refine ⟨?_, hr, ?_, ?_⟩
    · rw [driveLines_eq]
      simp only [List.enumFrom_append, List.filterMap_append, List.enumFrom]
      refine List.mem_append.mpr (Or.inr ?_)
      simp [hw, Nat.add_comm]
    · rw [driveLines_eq, driveLines_eq, driveLines_eq]
      simp [List.filterMap_append, hr]
    · rw [driveLines_eq, driveLines_eq, driveLines_eq]
      simp [List.filterMap_append, hr]
  · intro now srcName lines
    unfold convert_jsonl_to_markdown
    rw [driveLines_eq]
  · intro now srcName content
    unfold import_session
    rw [driveLines_eq]

/-- Witness for C7: the line `[1]` decodes to a list, so `data.get`
raises; with one line before and one after, the middle line is warned as
line 2, not counted, and the other two lines render as if it were not
there. -/
theorem c7_per_line_isolation_witness :
    2 ∈ (driveLines 1 (["not json"] ++ "[1]" ::
      ["\x7b\"type\":\"user\",\"message\":\x7b\"role\":\"user\",\"content\":\"Hi\"\x7d\x7d"])).2.2 ∧
    lineRendered "[1]" = none ∧
    (driveLines 1 (["not json"] ++ "[1]" ::
      ["\x7b\"type\":\"user\",\"message\":\x7b\"role\":\"user\",\"content\":\"Hi\"\x7d\x7d"])).1 =
      (driveLines 1 ["not json"]).1 ++
      (driveLines 1
        ["\x7b\"type\":\"user\",\"message\":\x7b\"role\":\"user\",\"content\":\"Hi\"\x7d\x7d"]).1 ∧
    (driveLines 1 (["not json"] ++ "[1]" ::
      ["\x7b\"type\":\"user\",\"message\":\x7b\"role\":\"user\",\"content\":\"Hi\"\x7d\x7d"])).2.1 =
      (driveLines 1 ["not json"]).2.1 +
      (driveLines 1
        ["\x7b\"type\":\"user\",\"message\":\x7b\"role\":\"user\",\"content\":\"Hi\"\x7d\x7d"]).2.1
  := by
  have h := c7_per_line_isolation.1 ["not json"]
    ["\x7b\"type\":\"user\",\"message\":\x7b\"role\":\"user\",\"content\":\"Hi\"\x7d\x7d"]
    "[1]" (by rfl)
  simpa using h

/-- The rendered blocks paired with their 1-based input line numbers. -/
def renderedWithIdx (i : Nat) (lines : List String) : List (Nat × String) :=
  (List.enumFrom i lines).filterMap
    (fun p => (lineRendered p.2).map (fun md => (p.1, md)))

/-- The per-line renderings are the ordered projection of the indexed
blocks. -/
theorem filterMap_eq_renderedWithIdx_snd : ∀ (lines : List String) (i : Nat),
    lines.filterMap lineRendered = (renderedWithIdx i lines).map Prod.snd
  | [], _ => rfl
  | line :: rest, i => by
    have ih := filterMap_eq_renderedWithIdx_snd rest (i + 1)
    simp only [renderedWithIdx, List.enumFrom, List.filterMap_cons] at *
    cases h : lineRendered line <;> simp [h, ih]

/-- The driver's block list is the ordered projection of the indexed
blocks. -/
theorem driveLines_fst_eq_renderedWithIdx (lines : List String) (i : Nat) :
    (driveLines i lines).1 = (renderedWithIdx i lines).map Prod.snd := by
  rw [driveLines_eq]
  exact filterMap_eq_renderedWithIdx_snd lines i

/-- Indices in `renderedWithIdx i lines` are at least `i` and strictly
increasing. -/
theorem renderedWithIdx_indices : ∀ (lines : List String) (i : Nat),
    (∀ j ∈ (renderedWithIdx i lines).map Prod.fst, i ≤ j) ∧
      List.Pairwise (· < ·) ((renderedWithIdx i lines).map Prod.fst)
  | [], _ => by simp [renderedWithIdx, List.enumFrom]
  | line :: rest, i => by
    have ih := renderedWithIdx_indices rest (i + 1)
    simp only [renderedWithIdx] at ih ⊢
    simp only [List.enumFrom, List.filterMap_cons]
    cases h : lineRendered line with
    | none =>
      simp only [h, Option.map_none']
      exact ⟨fun j hj => Nat.le_of_succ_le (ih.1 j hj), ih.2⟩
    | some md =>
      simp only [h, Option.map_some', List.map_cons]
      constructor
      · intro j hj
        rcases List.mem_cons.mp hj with rfl | h1
        · exact le_refl j
        · exact Nat.le_of_succ_le (ih.1 j h1)
      · refine List.pairwise_cons.mpr ⟨?_, ih.2⟩
        intro j hj
        exact Nat.lt_of_succ_le (ih.1 j hj)

/-- **C8**: the converter's output is the fixed header followed by the
concatenation, in input line order, of the rendered blocks of the lines
that render: blocks carry strictly increasing 1-based line indices, so no
block of a later line precedes one of an earlier line. -/
theorem c8_order_preserved :
    (∀ now srcName lines, convert_jsonl_to_markdown now srcName lines =
      headerBlock now srcName ++ String.join ((renderedWithIdx 1 lines).map Prod.snd)) ∧
    (∀ lines : List String,
      List.Pairwise (· < ·) ((renderedWithIdx 1 lines).map Prod.fst)) := by
  constructor
  · intro now srcName lines
    unfold convert_jsonl_to_markdown
    rw [driveLines_fst_eq_renderedWithIdx]
  · intro lines
    exact (renderedWithIdx_indices lines 1).2

/-! ## C9: the `dumps` / `loads` round trip

Helper lemmas about digits, hex escapes, whitespace and the printers,
leading to `jsonLoads (jsonDumps v) = some v`. -/

/-- Value of a reversed digit list (least significant first). -/
def revVal : List Char → Nat
  | [] => 0
  | c :: r => (c.toNat - 48) + 10 * revVal r

/-- Left fold value of a digit list (as computed by the parsers). -/
def digitsVal (l : List Char) : Nat :=
  l.foldl (fun acc c => acc * 10 + (c.toNat - 48)) 0

theorem digitsVal_append_digit (l : List Char) (c : Char) :
    digitsVal (l ++ [c]) = digitsVal l * 10 + (c.toNat - 48) := by
  simp [digitsVal, List.foldl_append]

theorem digitsVal_reverse (l : List Char) : digitsVal l.reverse = revVal l := by
  induction l with
  | nil => rfl
  | cons c r ih =>
    simp only [List.reverse_cons, digitsVal_append_digit, revVal, ih]
    ring

theorem digitChar_lt_ten (n : Nat) (h : n < 10) :
    (digitChar n).isDigit = true ∧ (digitChar n).toNat - 48 = n ∧
      (digitChar n = '0' ↔ n = 0) := by
  interval_cases n <;> refine ⟨rfl, rfl, by decide⟩

theorem natToRev_spec : ∀ (f n : Nat), n < f →
    (natToRev f n ≠ [] ∧ (∀ c ∈ natToRev f n, c.isDigit = true) ∧
      revVal (natToRev f n) = n ∧
      ((natToRev f n).reverse.headD '0' = '0' → n = 0))
  | 0, n, h => absurd h (by omega)
  | f + 1, n, h => by
    by_cases h10 : n < 10
    · simp only [natToRev, h10, if_true]
      obtain ⟨hd, hv, hz⟩ := digitChar_lt_ten n h10
      refine ⟨by simp, by simpa using hd, by simp [revVal, hv], ?_⟩
      intro hl
      simp only [List.reverse_singleton, List.headD_cons] at hl
      exact hz.mp hl
    · have hn : 0 < n := by omega
      have hdiv : n / 10 < f := by
        have := Nat.div_lt_self hn (by omega : 1 < 10)
        omega
      obtain ⟨ih1, ih2, ih3, ih4⟩ := natToRev_spec f (n / 10) hdiv
      simp only [natToRev, h10, if_false]
      obtain ⟨hd, hv, _⟩ := digitChar_lt_ten (n % 10) (Nat.mod_lt _ (by omega))
      refine ⟨by simp, ?_, ?_, ?_⟩
      · intro c hc
        rcases List.mem_cons.mp hc with rfl | hc
        · exact hd
        · exact ih2 c hc
      · simp only [revVal, hv, ih3]
        omega
      · intro hl
        rw [List.reverse_cons] at hl
        cases hr : (natToRev f (n / 10)).reverse with
        | nil => exact absurd (by simpa using hr) ih1
        | cons a as =>
          rw [hr] at hl
          simp only [List.cons_append, List.headD_cons] at hl
          have : n / 10 = 0 := by
            apply ih4
            rw [hr]
            simpa using hl
          omega

theorem natStr_spec (n : Nat) :
    (natStr n).data ≠ [] ∧ (∀ c ∈ (natStr n).data, c.isDigit = true) ∧
      digitsVal (natStr n).data = n ∧
      ((natStr n).data.headD '0' = '0' → n = 0) := by
  obtain ⟨h1, h2, h3, h4⟩ := natToRev_spec (n + 1) n (by omega)
  refine ⟨by simpa [natStr] using h1, ?_, ?_, ?_⟩
  · intro c hc
    exact h2 c (by simpa [natStr] using hc)
  · show digitsVal (natToRev (n + 1) n).reverse = n
    rw [digitsVal_reverse]
    exact h3
  · exact h4

theorem takeWhile_append_all (p : Char → Bool) : ∀ (l r : List Char),
    (∀ c ∈ l, p c = true) → (∀ c ∈ r.take 1, p c = false) →
    (l ++ r).takeWhile p = l ∧ (l ++ r).dropWhile p = r
  | [], r, _, hr => by
    cases r with
    | nil => exact ⟨rfl, rfl⟩
    | cons c t =>
      have : p c = false := hr c (by simp)
      simp [List.takeWhile, List.dropWhile, this]
  | a :: l, r, hl, hr => by
    have ha : p a = true := hl a (by simp)
    have ih := takeWhile_append_all p l r (fun c hc => hl c (by simp [hc])) hr
    simp [List.takeWhile, List.dropWhile, ha, ih.1, ih.2]

/-- The rest of the input breaks a number literal: it is empty or starts
with no digit, dot or exponent letter. -/
def numBreakB : List Char → Bool
  | [] => true
  | c :: _ => !c.isDigit && !(c == '.') && !(c == 'e') && !(c == 'E')

theorem digit_ne_specials {c : Char} (h : c.isDigit = true) :
    (c == '-') = false ∧ (c == '.') = false ∧ (c == 'e') = false ∧ (c == 'E') = false ∧
    (c == '"') = false ∧ (c == '[') = false ∧ (c == '\x7b') = false ∧
    (c == 'n') = false ∧ (c == 't') = false ∧ (c == 'f') = false := by
  simp only [Char.isDigit] at h
  simp only [Bool.and_eq_true, decide_eq_true_eq] at h
  refine ⟨?_, ?_, ?_, ?_, ?_, ?_, ?_, ?_, ?_, ?_⟩ <;>
    · simp only [beq_eq_false_iff_ne, ne_eq]
      intro hc
      subst hc
      revert h
      decide

theorem natStr_digits_break (m : Nat) (rest : List Char) (hrest : numBreakB rest = true) :
    ((natStr m).data ++ rest).takeWhile Char.isDigit = (natStr m).data ∧
    ((natStr m).data ++ rest).dropWhile Char.isDigit = rest := by
  obtain ⟨_, h2, _, _⟩ := natStr_spec m
  apply takeWhile_append_all _ _ _ h2
  intro c hc
  cases rest with
  | nil => simp at hc
  | cons r t =>
    simp only [List.take, List.mem_singleton] at hc
    subst hc
    simp only [numBreakB, Bool.and_eq_true, Bool.not_eq_true'] at hrest
    exact hrest.1.1.1

theorem parseIntLit_natStr (m : Nat) (rest : List Char) (hrest : numBreakB rest = true) :
    parseIntLit ((natStr m).data ++ rest) = some ((m : Int), rest) := by
  obtain ⟨h1, h2, h3, h4⟩ := natStr_spec m
  obtain ⟨ht, hd⟩ := natStr_digits_break m rest hrest
  obtain ⟨c0, cs, hc⟩ : ∃ c0 cs, (natStr m).data = c0 :: cs := by
    cases hx : (natStr m).data with
    | nil => exact absurd hx h1
    | cons a b => exact ⟨a, b, rfl⟩
  have hc0d : c0.isDigit = true := h2 c0 (by simp [hc])
  have hneg : (((natStr m).data ++ rest).headD ' ' == '-') = false := by
    rw [hc]
    simpa using (digit_ne_specials hc0d).1
  unfold parseIntLit
  simp only [hneg, Bool.false_eq_true, if_false, ht, hd]
  have hne : (natStr m).data.isEmpty = false := by
    rw [hc]; rfl
  simp only [hne, Bool.false_eq_true, if_false]
  have hlead : ((natStr m).data.length > 1 && (natStr m).data.headD '0' == '0') = false := by
    by_cases hz : (natStr m).data.headD '0' = '0'
    · have hm : m = 0 := h4 hz
      subst hm
      rfl
    · rw [hc] at hz ⊢
      simp only [List.headD_cons] at hz
      simp [hz]
  simp only [hlead, Bool.false_eq_true, if_false]
  have hrb : (rest.headD ' ' == '.' || rest.headD ' ' == 'e' || rest.headD ' ' == 'E')
      = false := by
    cases rest with
    | nil => rfl
    | cons r t =>
      simp only [numBreakB, Bool.and_eq_true, Bool.not_eq_true'] at hrest
      simp [hrest.1.1.2, hrest.1.2, hrest.2]
  simp only [hrb, Bool.false_eq_true, if_false]
  show some (((digitsVal (natStr m).data : Nat) : Int), rest) = _
  rw [h3]

theorem parseIntLit_intStr (n : Int) (rest : List Char) (hrest : numBreakB rest = true) :
    parseIntLit ((intStr n).data ++ rest) = some (n, rest) := by
  by_cases hn : n < 0
  · have : intStr n = "-" ++ natStr n.natAbs := by simp [intStr, hn]
    rw [this]
    have hdata : ("-" ++ natStr n.natAbs).data = '-' :: (natStr n.natAbs).data := rfl
    rw [hdata]
    obtain ⟨h1, h2, h3, h4⟩ := natStr_spec n.natAbs
    obtain ⟨ht, hd⟩ := natStr_digits_break n.natAbs rest hrest
    obtain ⟨c0, cs, hc⟩ : ∃ c0 cs, (natStr n.natAbs).data = c0 :: cs := by
      cases hx : (natStr n.natAbs).data with
      | nil => exact absurd hx h1
      | cons a b => exact ⟨a, b, rfl⟩
    unfold parseIntLit
    simp only [List.cons_append, List.headD_cons, List.tail_cons]
    have : ('-' == '-') = true := rfl
    simp only [this, if_true, ht, hd]
    have hne : (natStr n.natAbs).data.isEmpty = false := by
      cases hx : (natStr n.natAbs).data with
      | nil => exact absurd hx h1
      | cons a b => rfl
    simp only [hne, Bool.false_eq_true, if_false]
    have hlead : ((natStr n.natAbs).data.length > 1 &&
        (natStr n.natAbs).data.headD '0' == '0') = false := by
      by_cases hz : (natStr n.natAbs).data.headD '0' = '0'
      · have hm : n.natAbs = 0 := h4 hz
        omega
      · rw [hc] at hz ⊢
        simp only [List.headD_cons] at hz
        simp [hz]
    simp only [hlead, Bool.false_eq_true, if_false]
    have hrb : (rest.headD ' ' == '.' || rest.headD ' ' == 'e' || rest.headD ' ' == 'E')
        = false := by
      cases rest with
      | nil => rfl
      | cons r t =>
        simp only [numBreakB, Bool.and_eq_true, Bool.not_eq_true'] at hrest
        simp [hrest.1.1.2, hrest.1.2, hrest.2]
    simp only [hrb, Bool.false_eq_true, if_false]
    show some (-((digitsVal (natStr n.natAbs).data : Nat) : Int), rest) = _
    rw [h3]
    have habs : ((n.natAbs : Nat) : Int) = -n :=
      Int.ofNat_natAbs_of_nonpos (by omega)
    rw [habs, neg_neg]
  · have hn' : (0 : Int) ≤ n := by omega
    have : intStr n = natStr n.toNat := by simp [intStr, hn]
    rw [this, parseIntLit_natStr n.toNat rest hrest, Int.toNat_of_nonneg hn']

theorem parseHexDigit_hexChar (k : Nat) (h : k < 16) : parseHexDigit (hexChar k) = some k := by
  interval_cases k <;> rfl

theorem parse4Hex_hex4 (n : Nat) (h : n < 65536) (rest : List Char) :
    parse4Hex (hex4 n ++ rest) = some (n, rest) := by
  have e1 := parseHexDigit_hexChar (n / 4096 % 16) (Nat.mod_lt _ (by omega))
  have e2 := parseHexDigit_hexChar (n / 256 % 16) (Nat.mod_lt _ (by omega))
  have e3 := parseHexDigit_hexChar (n / 16 % 16) (Nat.mod_lt _ (by omega))
  have e4 := parseHexDigit_hexChar (n % 16) (Nat.mod_lt _ (by omega))
  simp only [hex4, List.cons_append, List.nil_append, parse4Hex, e1, e2, e3, e4,
    Option.bind_eq_bind, Option.some_bind]
  simp only [Option.pure_def, Option.some.injEq, Prod.mk.injEq, and_true]
  omega

theorem char_valid_range (c : Char) :
    c.toNat < 55296 ∨ (57343 < c.toNat ∧ c.toNat < 1114112) := c.valid

theorem parseUEsc_bmp (c : Char) (h : c.toNat < 0x10000) (rest : List Char) :
    parseUEsc (hex4 c.toNat ++ rest) = some (c, rest) := by
  have hval := char_valid_range c
  have hp4 := parse4Hex_hex4 c.toNat (by omega) rest
  have hcond : (decide (c.toNat < 55296) || decide (57344 ≤ c.toNat)) = true := by
    rcases hval with hv | hv <;> simp <;> omega
  simp [parseUEsc, hp4, hcond, Char.ofNat_toNat]
  intro hA hB
  exfalso
  rcases hval with hv | hv <;> omega

theorem parseUEsc_astral (c : Char) (h : ¬ c.toNat < 0x10000) (rest : List Char) :
    parseUEsc (hex4 (0xD800 + (c.toNat - 0x10000) / 0x400) ++
      '\\' :: 'u' :: (hex4 (0xDC00 + (c.toNat - 0x10000) % 0x400) ++ rest)) =
      some (c, rest) := by
  have hval := char_valid_range c
  have hdivlt : (c.toNat - 0x10000) / 0x400 < 0x400 :=
    Nat.div_lt_of_lt_mul (by omega : c.toNat - 0x10000 < 0x400 * 0x400)
  have hmodlt : (c.toNat - 0x10000) % 0x400 < 0x400 :=
    Nat.mod_lt _ (by omega : 0 < 0x400)
  have hp4a := parse4Hex_hex4 (0xD800 + (c.toNat - 0x10000) / 0x400) (by omega)
    ('\\' :: 'u' :: (hex4 (0xDC00 + (c.toNat - 0x10000) % 0x400) ++ rest))
  have hp4b := parse4Hex_hex4 (0xDC00 + (c.toNat - 0x10000) % 0x400) (by omega) rest
  have hcond1 : (decide (0xD800 + (c.toNat - 0x10000) / 0x400 < 55296) ||
      decide (57344 ≤ 0xD800 + (c.toNat - 0x10000) / 0x400)) = false := by
    simp only [Bool.or_eq_false_iff, decide_eq_false_iff_not, not_lt, not_le]
    omega
  have hlt : 0xD800 + (c.toNat - 0x10000) / 0x400 < 56320 := by omega
  have hlo : (decide (56320 ≤ 56320 + (c.toNat - 65536) % 1024)
      && decide (56320 + (c.toNat - 65536) % 1024 < 57344)) = true := by
    simp only [Bool.and_eq_true, decide_eq_true_eq]
    omega
  have harith : 0x10000 + (0xD800 + (c.toNat - 0x10000) / 0x400 - 0xD800)
      * 0x400 + (0xDC00 + (c.toNat - 0x10000) % 0x400 - 0xDC00) = c.toNat := by omega
  simp only [parseUEsc, Option.bind_eq_bind]
  rw [hp4a]
  rw [Option.some_bind]
  rw [hcond1]
  simp only [Bool.false_eq_true, if_false]
  rw [if_pos hlt]
  simp only [show (('\\' : Char) == '\\') = true from rfl,
    show (('u' : Char) == 'u') = true from rfl, Bool.and_self, if_true]
  rw [hp4b, Option.some_bind]
  rw [hlo]
  simp only [if_true]
  rw [harith, Char.ofNat_toNat]
  rfl

theorem parseStrBody_esc_step (c : Char) (cs rest : List Char) (g : Nat)
    (ih : parseStrBody g (cs.flatMap jsonEscChar ++ '"' :: rest) = some (cs, rest)) :
    parseStrBody (g + 1) (jsonEscChar c ++ (cs.flatMap jsonEscChar ++ '"' :: rest)) =
      some (c :: cs, rest) := by
  by_cases h1 : c == '"'
  · have : c = '"' := by simpa using h1
    subst this
    simp [jsonEscChar, parseStrBody, ih]
  · by_cases h2 : c == '\\'
    · have : c = '\\' := by simpa using h2
      subst this
      simp [jsonEscChar, parseStrBody, ih]
    · by_cases h3 : c == '\n'
      · have : c = '\n' := by simpa using h3
        subst this
        simp [jsonEscChar, parseStrBody, ih]
      · by_cases h4 : c == '\t'
        · have : c = '\t' := by simpa using h4
          subst this
          simp [jsonEscChar, parseStrBody, ih]
        · by_cases h5 : c == '\x0d'
          · have : c = '\x0d' := by simpa using h5
            subst this
            simp [jsonEscChar, parseStrBody, ih]
          · by_cases h6 : c == '\x08'
            · have : c = '\x08' := by simpa using h6
              subst this
              simp [jsonEscChar, parseStrBody, ih]
            · by_cases h7 : c == '\x0c'
              · have : c = '\x0c' := by simpa using h7
                subst this
                simp [jsonEscChar, parseStrBody, ih]
              · by_cases h8 : c.toNat < 0x20
                · have hesc : jsonEscChar c = '\\' :: 'u' :: hex4 c.toNat := by
                    simp [jsonEscChar, h1, h2, h3, h4, h5, h6, h7, h8]
                  rw [hesc]
                  have hu := parseUEsc_bmp c (by omega)
                    (cs.flatMap jsonEscChar ++ '"' :: rest)
                  simp [parseStrBody, hu, ih]
                · by_cases h9 : c.toNat < 0x7f
                  · have hesc : jsonEscChar c = [c] := by
                      simp [jsonEscChar, h1, h2, h3, h4, h5, h6, h7, h8, h9]
                    rw [hesc]
                    simp [parseStrBody, h1, h2, h8, ih]
                  · by_cases h10 : c.toNat < 0x10000
                    · have hesc : jsonEscChar c = '\\' :: 'u' :: hex4 c.toNat := by
                        simp [jsonEscChar, h1, h2, h3, h4, h5, h6, h7, h8, h9, h10]
                      rw [hesc]
                      have hu := parseUEsc_bmp c (by omega)
                        (cs.flatMap jsonEscChar ++ '"' :: rest)
                      simp [parseStrBody, hu, ih]
                    · have hesc : jsonEscChar c =
                          ('\\' :: 'u' :: hex4 (0xD800 + (c.toNat - 0x10000) / 0x400)) ++
                          '\\' :: 'u' :: hex4 (0xDC00 + (c.toNat - 0x10000) % 0x400) := by
                        simp [jsonEscChar, h1, h2, h3, h4, h5, h6, h7, h8, h9, h10]
                      rw [hesc]
                      have hu := parseUEsc_astral c h10
                        (cs.flatMap jsonEscChar ++ '"' :: rest)
                      simp only [List.append_eq, List.cons_append, List.append_assoc]
                      simp [parseStrBody, hu, ih]
theorem parseStrBody_roundtrip : ∀ (s rest : List Char) (f : Nat), s.length < f →
    parseStrBody f (s.flatMap jsonEscChar ++ '"' :: rest) = some (s, rest)
  | [], rest, f, hf => by
    obtain ⟨g, rfl⟩ : ∃ g, f = g + 1 := ⟨f - 1, by omega⟩
    simp [parseStrBody]
  | c :: cs, rest, f, hf => by
    obtain ⟨g, rfl⟩ : ∃ g, f = g + 1 := ⟨f - 1, by omega⟩
    have hg : cs.length < g := by
      simp only [List.length_cons] at hf
      omega
    have ih := parseStrBody_roundtrip cs rest g hg
    simp only [List.flatMap_cons, List.append_assoc]
    exact parseStrBody_esc_step c cs rest g ih

/-- JSON whitespace characters (the class skipped by `skipWs`). -/
def isJsonWs (c : Char) : Bool := c == ' ' || c == '\t' || c == '\n' || c == '\x0d'

theorem skipWs_eq_dropWhile (s : List Char) : skipWs s = s.dropWhile isJsonWs := rfl

theorem skipWs_cons_of_ws {c : Char} (t : List Char) (hc : isJsonWs c = true) :
    skipWs (c :: t) = skipWs t := by
  rw [skipWs_eq_dropWhile, skipWs_eq_dropWhile, List.dropWhile_cons_of_pos hc]

theorem skipWs_of_head {c : Char} (t : List Char) (hc : isJsonWs c = false) :
    skipWs (c :: t) = c :: t := by
  rw [skipWs_eq_dropWhile, List.dropWhile_cons_of_neg (by simp [hc])]

theorem skipWs_append_ws : ∀ (w t : List Char), (∀ c ∈ w, isJsonWs c = true) →
    skipWs (w ++ t) = skipWs t
  | [], t, _ => rfl
  | c :: w, t, h => by
    rw [List.cons_append, skipWs_cons_of_ws _ (h c (by simp))]
    exact skipWs_append_ws w t (fun c hc => h c (by simp [hc]))

theorem spaces_ws (n : Nat) : ∀ c ∈ (spaces n).data, isJsonWs c = true := by
  intro c hc
  have : c = ' ' := List.eq_of_mem_replicate (by simpa [spaces] using hc)
  subst this
  rfl

set_option maxHeartbeats 1000000 in
/-- Nonempty escape expansions. -/
theorem jsonEscChar_ne_nil (c : Char) : 1 ≤ (jsonEscChar c).length := by
  unfold jsonEscChar
  split_ifs <;> simp [hex4]

theorem flatMap_esc_len (s : List Char) : s.length ≤ (s.flatMap jsonEscChar).length := by
  induction s with
  | nil => simp
  | cons c cs ih =>
    have := jsonEscChar_ne_nil c
    simp only [List.flatMap_cons, List.length_append, List.length_cons]
    omega

/-- No two entries of a dict share a key. -/
def nodupKeysB : PyDict → Bool
  | .nil => true
  | .cons k _ t => !(dictKeys t).contains k && nodupKeysB t

mutual
/-- Every dict anywhere inside the value has pairwise distinct keys (true
of every value produced by `json.loads`, hence of every tool input). -/
def wfVal : PyVal → Bool
  | .str _ => true
  | .int _ => true
  | .bool _ => true
  | .noneVal => true
  | .list items => wfList items
  | .dict entries => nodupKeysB entries && wfDict entries

/-- `wfVal` on every list element. -/
def wfList : PyList → Bool
  | .nil => true
  | .cons h t => wfVal h && wfList t

/-- `wfVal` on every dict value. -/
def wfDict : PyDict → Bool
  | .nil => true
  | .cons _ v t => wfVal v && wfDict t
end

mutual
/-- Fuel requirement of the parser on a printed value. -/
def pySz : PyVal → Nat
  | .str _ => 1
  | .int _ => 1
  | .bool _ => 1
  | .noneVal => 1
  | .list items => 1 + pySzL items
  | .dict entries => 1 + pySzD entries

/-- Fuel requirement of the printed list items. -/
def pySzL : PyList → Nat
  | .nil => 0
  | .cons h t => 1 + pySz h + pySzL t

/-- Fuel requirement of the printed dict entries. -/
def pySzD : PyDict → Nat
  | .nil => 0
  | .cons _ v t => 1 + pySz v + pySzD t
end

/-- Concatenation of dicts (entry order preserved). -/
def dictCat : PyDict → PyDict → PyDict
  | .nil, e => e
  | .cons k v t, e => .cons k v (dictCat t e)

theorem dictCat_assoc : ∀ (a b c : PyDict),
    dictCat (dictCat a b) c = dictCat a (dictCat b c) := by
  intro a
  induction a using pyDictInd with
  | hnil => intro b c; rfl
  | hcons k v t ih => intro b c; simp [dictCat, ih]

theorem dictKeys_dictCat : ∀ (a b : PyDict),
    dictKeys (dictCat a b) = dictKeys a ++ dictKeys b := by
  intro a
  induction a using pyDictInd with
  | hnil => intro b; rfl
  | hcons k v t ih => intro b; simp [dictCat, dictKeys, ih]

theorem dictSet_fresh (k : String) (v : PyVal) : ∀ (acc : PyDict),
    (dictKeys acc).contains k = false →
    dictSet k v acc = dictCat acc (.cons k v .nil) := by
  intro acc
  induction acc using pyDictInd with
  | hnil => intro _; rfl
  | hcons key w tail ih =>
    intro h
    simp only [dictKeys, List.contains_cons, Bool.or_eq_false_iff] at h
    have h1 : ¬ k = key := by simpa using h.1
    simp only [dictSet, dictCat]
    rw [if_neg (by simp only [beq_iff_eq]; exact fun hx => h1 hx.symm), ih h.2]

/-- The text after the first item of a printed list: separators, indents
and the remaining items. -/
def listSep (lvl : Nat) : PyList → List Char
  | .nil => []
  | .cons y tt =>
    ',' :: '\n' :: ((spaces (2 * lvl)).data ++ (dumpsAt lvl y).data ++ listSep lvl tt)

/-- The text after the first entry of a printed dict. -/
def dictSep (lvl : Nat) : PyDict → List Char
  | .nil => []
  | .cons k v tt =>
    ',' :: '\n' :: ((spaces (2 * lvl)).data ++ (jsonQuote k).data ++
      ':' :: ' ' :: ((dumpsAt lvl v).data ++ dictSep lvl tt))

theorem dumpsList_decomp : ∀ (lvl : Nat) (x : PyVal) (t : PyList),
    (dumpsList lvl (.cons x t)).data =
      (spaces (2 * lvl)).data ++ (dumpsAt lvl x).data ++ listSep lvl t
  | lvl, x, .nil => by
    show (spaces (2 * lvl) ++ dumpsAt lvl x).data = _
    simp [String.data_append, listSep]
  | lvl, x, .cons y tt => by
    have ih := dumpsList_decomp lvl y tt
    show (spaces (2 * lvl) ++ dumpsAt lvl x ++ ",\n" ++
      dumpsList lvl (.cons y tt)).data = _
    simp only [String.data_append, ih, listSep]
    simp

theorem dumpsDict_decomp : ∀ (lvl : Nat) (k : String) (v : PyVal) (t : PyDict),
    (dumpsDict lvl (.cons k v t)).data =
      (spaces (2 * lvl)).data ++ (jsonQuote k).data ++
        ':' :: ' ' :: ((dumpsAt lvl v).data ++ dictSep lvl t)
  | lvl, k, v, .nil => by
    show (spaces (2 * lvl) ++ jsonQuote k ++ ": " ++ dumpsAt lvl v).data = _
    simp [String.data_append, dictSep]
  | lvl, k, v, .cons k2 v2 tt => by
    have ih := dumpsDict_decomp lvl k2 v2 tt
    show (spaces (2 * lvl) ++ jsonQuote k ++ ": " ++ dumpsAt lvl v ++ ",\n" ++
      dumpsDict lvl (.cons k2 v2 tt)).data = _
    simp only [String.data_append, ih, dictSep]
    simp

theorem digit_not_special {c x : Char} (h : c.isDigit = true) (hx : x.isDigit = false) :
    (c == x) = false := by
  simp only [beq_eq_false_iff_ne, ne_eq]
  intro hc
  subst hc
  exact absurd h (by simp [hx])

theorem digit_head_facts {c : Char} (h : c.isDigit = true) :
    isJsonWs c = false ∧ (c == ']') = false ∧ (c == '\x7d') = false := by
  refine ⟨?_, digit_not_special h (by decide), digit_not_special h (by decide)⟩
  simp only [isJsonWs, digit_not_special h (by decide : (' ' : Char).isDigit = false),
    digit_not_special h (by decide : ('\t' : Char).isDigit = false),
    digit_not_special h (by decide : ('\n' : Char).isDigit = false),
    digit_not_special h (by decide : ('\x0d' : Char).isDigit = false), Bool.or_self]

/-- The first character of any printed value: never whitespace, never a
closing bracket or brace. -/
theorem dumpsAt_head (lvl : Nat) (v : PyVal) :
    ∃ c cs, (dumpsAt lvl v).data = c :: cs ∧ isJsonWs c = false ∧
      (c == ']') = false ∧ (c == '\x7d') = false := by
  cases v with
  | str s => exact ⟨'"', _, rfl, rfl, rfl, rfl⟩
  | int n =>
    show ∃ c cs, (intStr n).data = c :: cs ∧ _
    by_cases hn : n < 0
    · refine ⟨'-', (natStr n.natAbs).data, ?_, rfl, rfl, rfl⟩
      simp [intStr, hn]
    · obtain ⟨h1, h2, _, _⟩ := natStr_spec n.toNat
      have : intStr n = natStr n.toNat := by simp [intStr, hn]
      rw [this]
      obtain ⟨c0, cs, hc⟩ : ∃ c0 cs, (natStr n.toNat).data = c0 :: cs := by
        cases hx : (natStr n.toNat).data with
        | nil => exact absurd hx h1
        | cons a b => exact ⟨a, b, rfl⟩
      have hd := h2 c0 (by simp [hc])
      obtain ⟨w1, w2, w3⟩ := digit_head_facts hd
      exact ⟨c0, cs, hc, w1, w2, w3⟩
  | bool b => cases b with
    | true => exact ⟨'t', _, rfl, rfl, rfl, rfl⟩
    | false => exact ⟨'f', _, rfl, rfl, rfl, rfl⟩
  | noneVal => exact ⟨'n', _, rfl, rfl, rfl, rfl⟩
  | list items => cases items with
    | nil => exact ⟨'[', _, rfl, rfl, rfl, rfl⟩
    | cons x t =>
      refine ⟨'[', '\n' :: ((dumpsList (lvl + 1) (.cons x t)).data ++
        '\n' :: ((spaces (2 * lvl)).data ++ [']'])), ?_, rfl, rfl, rfl⟩
      show ("[\n" ++ dumpsList (lvl + 1) (.cons x t) ++ "\n" ++
        spaces (2 * lvl) ++ "]").data = _
      simp [String.data_append]
  | dict entries => cases entries with
    | nil => exact ⟨'\x7b', _, rfl, rfl, rfl, rfl⟩
    | cons k v t =>
      refine ⟨'\x7b', '\n' :: ((dumpsDict (lvl + 1) (.cons k v t)).data ++
        '\n' :: ((spaces (2 * lvl)).data ++ ['\x7d'])), ?_, rfl, rfl, rfl⟩
      show ("\x7b\n" ++ dumpsDict (lvl + 1) (.cons k v t) ++ "\n" ++
        spaces (2 * lvl) ++ "\x7d").data = _
      simp [String.data_append]

theorem numBreakB_ws_head {c : Char} (w : List Char) (hc : isJsonWs c = true) :
    numBreakB (c :: w) = true := by
  have : ((c = ' ' ∨ c = '\t') ∨ c = '\n') ∨ c = '\x0d' := by
    simpa [isJsonWs, beq_iff_eq] using hc
  rcases this with ((rfl | rfl) | rfl) | rfl <;> rfl

theorem numBreakB_append_close (w : List Char) (cl : Char) (rest : List Char)
    (hw : ∀ c ∈ w, isJsonWs c = true)
    (hcl : (!cl.isDigit && !(cl == '.') && !(cl == 'e') && !(cl == 'E')) = true) :
    numBreakB (w ++ cl :: rest) = true := by
  cases w with
  | nil => simpa [numBreakB] using hcl
  | cons c w2 => exact numBreakB_ws_head _ (hw c (by simp))


/-- If neither list contains the key, nor does their concatenation. -/
theorem contains_append_false : ∀ (l1 l2 : List String) (a : String),
    l1.contains a = false → l2.contains a = false → (l1 ++ l2).contains a = false
  | [], _, _, _, h2 => h2
  | b :: l1, l2, a, h1, h2 => by
    simp only [List.contains_cons, Bool.or_eq_false_iff] at h1
    show ((a == b) || (l1 ++ l2).contains a) = false
    rw [h1.1, contains_append_false l1 l2 a h1.2 h2]
    rfl

mutual
/-- A printed value parses back to itself (mutual round trip; `rest` must
not extend a trailing number literal). -/
theorem parseVal_print : ∀ (v : PyVal) (lvl : Nat) (rest : List Char) (f : Nat),
    wfVal v = true → numBreakB rest = true →
    parseVal (f + pySz v) ((dumpsAt lvl v).data ++ rest) = some (v, rest)
  | .str s, lvl, rest, f, _, _ => by
    show parseVal (f + 1) ((jsonQuote s).data ++ rest) = _
    have hq : (jsonQuote s).data = '"' :: (s.data.flatMap jsonEscChar ++ ['"']) := rfl
    rw [hq]
    simp only [List.cons_append, List.append_assoc, List.singleton_append, List.nil_append]
    have hsb := parseStrBody_roundtrip s.data rest
      ((s.data.flatMap jsonEscChar ++ '"' :: rest).length + 1)
      (by
        have := flatMap_esc_len s.data
        simp only [List.length_append, List.length_cons]
        omega)
    simp only [parseVal]
    rw [if_pos (by decide)]
    rw [hsb]
    rfl
  | .int n, lvl, rest, f, _, hrest => by
    show parseVal (f + 1) ((intStr n).data ++ rest) = _
    have hp := parseIntLit_intStr n rest hrest
    by_cases hn : n < 0
    · have hi : intStr n = "-" ++ natStr n.natAbs := by simp [intStr, hn]
      have hd : (intStr n).data = '-' :: (natStr n.natAbs).data := by
        rw [hi]
        simp [String.data_append]
      rw [hd]
      rw [hd] at hp
      simp only [List.cons_append] at hp ⊢
      simp [parseVal, hp]
    · have hi : intStr n = natStr n.toNat := by simp [intStr, hn]
      obtain ⟨h1, h2, _, _⟩ := natStr_spec n.toNat
      obtain ⟨c0, cs, hc⟩ : ∃ c0 cs, (natStr n.toNat).data = c0 :: cs := by
        cases hx : (natStr n.toNat).data with
        | nil => exact absurd hx h1
        | cons a b => exact ⟨a, b, rfl⟩
      have hd0 : c0.isDigit = true := h2 c0 (by simp [hc])
      obtain ⟨w1, w2, w3, w4, w5, w6, w7, w8, w9, w10⟩ := digit_ne_specials hd0
      have hd : (intStr n).data = c0 :: cs := by rw [hi, hc]
      rw [hd]
      rw [hd] at hp
      simp only [List.cons_append] at hp ⊢
      simp [parseVal, hp, w5, w6, w7, w8, w9, w10]
  | .bool true, lvl, rest, f, _, _ => by
    show parseVal (f + 1) ("true".data ++ rest) = _
    simp [parseVal, List.isPrefixOf]
  | .bool false, lvl, rest, f, _, _ => by
    show parseVal (f + 1) ("false".data ++ rest) = _
    simp [parseVal, List.isPrefixOf]
  | .noneVal, lvl, rest, f, _, _ => by
    show parseVal (f + 1) ("null".data ++ rest) = _
    simp [parseVal, List.isPrefixOf]
  | .list .nil, lvl, rest, f, _, _ => by
    show parseVal (f + (1 + pySzL .nil)) ("[]".data ++ rest) = _
    have hs : skipWs (']' :: rest) = ']' :: rest := skipWs_of_head rest rfl
    simp [parseVal, hs, pySzL]
  | .list (.cons x t), lvl, rest, f, hwf, hrest => by
    have hwx : wfVal x = true ∧ wfList t = true := by
      simpa [wfVal, wfList] using hwf
    obtain ⟨c0, cs0, hx, hxw, hxb, _⟩ := dumpsAt_head (lvl + 1) x
    have hfe : f + pySz (.list (.cons x t)) = (f + pySzL (.cons x t)) + 1 := by
      simp only [pySz]
      omega
    rw [hfe]
    have hdata : (dumpsAt lvl (.list (.cons x t))).data ++ rest =
        '[' :: '\n' :: ((spaces (2 * (lvl + 1))).data ++ ((dumpsAt (lvl + 1) x).data ++
          (listSep (lvl + 1) t ++ '\n' :: ((spaces (2 * lvl)).data ++ ']' :: rest)))) := by
      show ("[\n" ++ dumpsList (lvl + 1) (.cons x t) ++ "\n" ++
        spaces (2 * lvl) ++ "]").data ++ rest = _
      simp [String.data_append, dumpsList_decomp]
    rw [hdata]
    have hskip : skipWs ('\n' :: ((spaces (2 * (lvl + 1))).data ++ ((dumpsAt (lvl + 1) x).data
        ++ (listSep (lvl + 1) t ++ '\n' :: ((spaces (2 * lvl)).data ++ ']' :: rest))))) =
        (dumpsAt (lvl + 1) x).data ++
          (listSep (lvl + 1) t ++ '\n' :: ((spaces (2 * lvl)).data ++ ']' :: rest)) := by
      rw [@skipWs_cons_of_ws '\n' _ rfl, skipWs_append_ws _ _ (spaces_ws _)]
      rw [hx]
      exact skipWs_of_head _ hxw
    have hb := parseArrItems_print x t (lvl + 1)
      ('\n' :: (spaces (2 * lvl)).data) rest f hwx.1 hwx.2
      (by
        intro c hc
        rcases List.mem_cons.mp hc with rfl | hc
        · rfl
        · exact spaces_ws _ c hc)
    simp only [List.cons_append] at hb
    simp only [parseVal]
    rw [if_neg (by decide), if_pos (by decide)]
    rw [hskip, hx]
    simp only [List.cons_append]
    rw [if_neg (by simp [hxb])]
    have hfold : c0 :: (cs0 ++ (listSep (lvl + 1) t ++
        '\n' :: ((spaces (2 * lvl)).data ++ ']' :: rest))) =
        (dumpsAt (lvl + 1) x).data ++ (listSep (lvl + 1) t ++
          '\n' :: ((spaces (2 * lvl)).data ++ ']' :: rest)) := by
      rw [hx, List.cons_append]
    rw [hfold]
    rw [show pySzL (PyList.cons x t) = 1 + pySz x + pySzL t from rfl]
    rw [hb]
    rfl
  | .dict .nil, lvl, rest, f, _, _ => by
    show parseVal (f + (1 + pySzD .nil)) ("\x7b\x7d".data ++ rest) = _
    have hs : skipWs ('\x7d' :: rest) = '\x7d' :: rest := skipWs_of_head rest rfl
    simp [parseVal, hs, pySzD]
  | .dict (.cons k v t), lvl, rest, f, hwf, hrest => by
    have hwx : nodupKeysB (.cons k v t) = true ∧ wfVal v = true ∧ wfDict t = true := by
      have h := hwf
      simp only [wfVal, Bool.and_eq_true] at h
      exact ⟨h.1, by simpa [wfDict] using h.2⟩
    have hfe : f + pySz (.dict (.cons k v t)) = (f + pySzD (.cons k v t)) + 1 := by
      simp only [pySz]
      omega
    rw [hfe]
    have hdata : (dumpsAt lvl (.dict (.cons k v t))).data ++ rest =
        '\x7b' :: '\n' :: ((spaces (2 * (lvl + 1))).data ++ ((jsonQuote k).data ++
          ':' :: ' ' :: ((dumpsAt (lvl + 1) v).data ++ (dictSep (lvl + 1) t ++
            '\n' :: ((spaces (2 * lvl)).data ++ '\x7d' :: rest))))) := by
      show ("\x7b\n" ++ dumpsDict (lvl + 1) (.cons k v t) ++ "\n" ++
        spaces (2 * lvl) ++ "\x7d").data ++ rest = _
      simp [String.data_append, dumpsDict_decomp]
    rw [hdata]
    have hskip : skipWs ('\n' :: ((spaces (2 * (lvl + 1))).data ++ ((jsonQuote k).data ++
        ':' :: ' ' :: ((dumpsAt (lvl + 1) v).data ++ (dictSep (lvl + 1) t ++
          '\n' :: ((spaces (2 * lvl)).data ++ '\x7d' :: rest)))))) =
        '"' :: (k.data.flatMap jsonEscChar ++ '"' ::
          (':' :: ' ' :: ((dumpsAt (lvl + 1) v).data ++ (dictSep (lvl + 1) t ++
            '\n' :: ((spaces (2 * lvl)).data ++ '\x7d' :: rest))))) := by
      rw [@skipWs_cons_of_ws '\n' _ rfl, skipWs_append_ws _ _ (spaces_ws _)]
      rw [show (jsonQuote k).data = '"' :: (k.data.flatMap jsonEscChar ++ ['"']) from rfl]
      simp only [List.cons_append, List.append_assoc, List.singleton_append, List.nil_append]
      exact skipWs_of_head _ rfl
    have hd := parseObjItems_print k v t (lvl + 1)
      ('\n' :: (spaces (2 * lvl)).data) rest f .nil hwx.2.1 hwx.2.2 hwx.1
      (by
        intro k2 _
        rfl)
      (by
        intro c hc
        rcases List.mem_cons.mp hc with rfl | hc
        · rfl
        · exact spaces_ws _ c hc)
    rw [show (jsonQuote k).data = '"' :: (k.data.flatMap jsonEscChar ++ ['"']) from rfl] at hd
    simp only [List.cons_append, List.append_assoc, List.singleton_append,
      List.nil_append] at hd
    simp only [parseVal]
    rw [if_neg (by decide), if_neg (by decide), if_pos (by decide)]
    rw [hskip]
    simp only []
    rw [if_neg (by decide)]
    rw [show pySzD (PyDict.cons k v t) = 1 + pySz v + pySzD t from rfl]
    rw [hd]
    rfl
termination_by v _ _ _ _ _ => sizeOf v
decreasing_by
  all_goals simp_wf
  all_goals omega

/-- The printed items of a nonempty list, followed by whitespace and the
closing bracket, parse back to the list. -/
theorem parseArrItems_print : ∀ (x : PyVal) (t : PyList) (lvl : Nat)
    (w rest : List Char) (f : Nat),
    wfVal x = true → wfList t = true → (∀ c ∈ w, isJsonWs c = true) →
    parseArrItems (f + (1 + pySz x + pySzL t))
      ((dumpsAt lvl x).data ++ (listSep lvl t ++ (w ++ ']' :: rest))) =
      some (.cons x t, rest)
  | x, .nil, lvl, w, rest, f, hx, _, hw => by
    have hfe : f + (1 + pySz x + pySzL .nil) = (f + pySz x) + 1 := by
      simp only [pySzL]
      omega
    rw [hfe]
    simp only [listSep, List.nil_append]
    have ha := parseVal_print x lvl (w ++ ']' :: rest) f hx
      (numBreakB_append_close w ']' rest hw (by decide))
    have hs : skipWs (w ++ ']' :: rest) = ']' :: rest := by
      rw [skipWs_append_ws _ _ hw]
      exact skipWs_of_head rest rfl
    simp [parseArrItems, ha, hs]
  | x, .cons y tt, lvl, w, rest, f, hx, ht, hw => by
    have hyt : wfVal y = true ∧ wfList tt = true := by
      simpa [wfList] using ht
    have hfe : f + (1 + pySz x + pySzL (.cons y tt)) =
        ((f + 1 + pySz y + pySzL tt) + pySz x) + 1 := by
      simp only [pySzL]
      omega
    rw [hfe]
    have ha := parseVal_print x lvl
      (listSep lvl (.cons y tt) ++ (w ++ ']' :: rest)) (f + 1 + pySz y + pySzL tt) hx
      (by rfl)
    obtain ⟨c0, cs0, hy, hyw, _, _⟩ := dumpsAt_head lvl y
    have hb := parseArrItems_print y tt lvl w rest (f + pySz x) hyt.1 hyt.2 hw
    simp only [parseArrItems, ha, Option.bind_eq_bind, Option.some_bind]
    simp only [listSep, List.cons_append, List.append_assoc]
    have hsc : skipWs (',' :: '\n' :: ((spaces (2 * lvl)).data ++ ((dumpsAt lvl y).data ++
        (listSep lvl tt ++ (w ++ ']' :: rest))))) =
        ',' :: '\n' :: ((spaces (2 * lvl)).data ++ ((dumpsAt lvl y).data ++
          (listSep lvl tt ++ (w ++ ']' :: rest)))) := skipWs_of_head _ rfl
    rw [hsc]
    simp only []
    rw [if_pos (by decide)]
    have hskip : skipWs ('\n' :: ((spaces (2 * lvl)).data ++ ((dumpsAt lvl y).data ++
        (listSep lvl tt ++ (w ++ ']' :: rest))))) =
        (dumpsAt lvl y).data ++ (listSep lvl tt ++ (w ++ ']' :: rest)) := by
      rw [@skipWs_cons_of_ws '\n' _ rfl, skipWs_append_ws _ _ (spaces_ws _)]
      rw [hy]
      exact skipWs_of_head _ hyw
    rw [hskip]
    rw [show f + 1 + pySz y + pySzL tt + pySz x = (f + pySz x) + (1 + pySz y + pySzL tt)
      by omega]
    rw [hb]
    rfl
termination_by x t _ _ _ _ _ _ _ => 1 + sizeOf x + sizeOf t
decreasing_by
  all_goals simp_wf
  all_goals omega

/-- The printed entries of a nonempty dict, followed by whitespace and the
closing brace, parse back to the accumulated dict. -/
theorem parseObjItems_print : ∀ (k : String) (v : PyVal) (t : PyDict) (lvl : Nat)
    (w rest : List Char) (f : Nat) (acc : PyDict),
    wfVal v = true → wfDict t = true → nodupKeysB (.cons k v t) = true →
    (∀ k2 ∈ dictKeys (.cons k v t), (dictKeys acc).contains k2 = false) →
    (∀ c ∈ w, isJsonWs c = true) →
    parseObjItems (f + (1 + pySz v + pySzD t))
      ((jsonQuote k).data ++ ':' :: ' ' :: ((dumpsAt lvl v).data ++
        (dictSep lvl t ++ (w ++ '\x7d' :: rest)))) acc =
      some (dictCat acc (.cons k v t), rest)
  | k, v, .nil, lvl, w, rest, f, acc, hv, _, _, hdisj, hw => by
    have hfe : f + (1 + pySz v + pySzD .nil) = (f + pySz v) + 1 := by
      simp only [pySzD]
      omega
    rw [hfe]
    rw [show (jsonQuote k).data = '"' :: (k.data.flatMap jsonEscChar ++ ['"']) from rfl]
    simp only [dictSep, List.nil_append, List.cons_append, List.append_assoc,
      List.singleton_append]
    have hsb := parseStrBody_roundtrip k.data
      (':' :: ' ' :: ((dumpsAt lvl v).data ++ (w ++ '\x7d' :: rest)))
      ((k.data.flatMap jsonEscChar ++
        '"' :: (':' :: ' ' :: ((dumpsAt lvl v).data ++ (w ++ '\x7d' :: rest)))).length + 1)
      (by
        have := flatMap_esc_len k.data
        simp only [List.length_append, List.length_cons]
        omega)
    obtain ⟨c0, cs0, hvh, hvw, _, _⟩ := dumpsAt_head lvl v
    have ha := parseVal_print v lvl (w ++ '\x7d' :: rest) f hv
      (numBreakB_append_close w '\x7d' rest hw (by decide))
    have hskipv : skipWs (' ' :: ((dumpsAt lvl v).data ++ (w ++ '\x7d' :: rest))) =
        (dumpsAt lvl v).data ++ (w ++ '\x7d' :: rest) := by
      rw [@skipWs_cons_of_ws ' ' _ rfl]
      rw [hvh]
      exact skipWs_of_head _ hvw
    have hfresh : (dictKeys acc).contains k = false := hdisj k (by simp [dictKeys])
    simp only [parseObjItems]
    rw [if_pos (by decide)]
    rw [hsb]
    simp only [Option.bind_eq_bind, Option.some_bind]
    have hsc : skipWs (':' :: ' ' :: ((dumpsAt lvl v).data ++ (w ++ '\x7d' :: rest))) =
        ':' :: ' ' :: ((dumpsAt lvl v).data ++ (w ++ '\x7d' :: rest)) :=
      skipWs_of_head _ rfl
    rw [hsc]
    simp only []
    rw [if_pos (by decide)]
    rw [hskipv, ha]
    simp only [Option.some_bind]
    rw [show (⟨k.data⟩ : String) = k from rfl]
    rw [dictSet_fresh k v acc hfresh]
    have hs : skipWs (w ++ '\x7d' :: rest) = '\x7d' :: rest := by
      rw [skipWs_append_ws _ _ hw]
      exact skipWs_of_head rest rfl
    rw [hs]
    simp only []
    rw [if_neg (by decide), if_pos (by decide)]
    rfl
  | k, v, .cons k2 v2 tt, lvl, w, rest, f, acc, hv, ht, hnd, hdisj, hw => by
    have hfe : f + (1 + pySz v + pySzD (.cons k2 v2 tt)) =
        ((f + pySzD (.cons k2 v2 tt)) + pySz v) + 1 := by omega
    rw [hfe]
    rw [show (jsonQuote k).data = '"' :: (k.data.flatMap jsonEscChar ++ ['"']) from rfl]
    simp only [List.cons_append, List.append_assoc, List.singleton_append, List.nil_append]
    have hsb := parseStrBody_roundtrip k.data
      (':' :: ' ' :: ((dumpsAt lvl v).data ++
        (dictSep lvl (.cons k2 v2 tt) ++ (w ++ '\x7d' :: rest))))
      ((k.data.flatMap jsonEscChar ++
        '"' :: (':' :: ' ' :: ((dumpsAt lvl v).data ++
          (dictSep lvl (.cons k2 v2 tt) ++ (w ++ '\x7d' :: rest))))).length + 1)
      (by
        have := flatMap_esc_len k.data
        simp only [List.length_append, List.length_cons]
        omega)
    obtain ⟨c0, cs0, hvh, hvw, _, _⟩ := dumpsAt_head lvl v
    have hrest2 : numBreakB (dictSep lvl (.cons k2 v2 tt) ++ (w ++ '\x7d' :: rest)) =
        true := rfl
    have ha := parseVal_print v lvl
      (dictSep lvl (.cons k2 v2 tt) ++ (w ++ '\x7d' :: rest))
      (f + pySzD (.cons k2 v2 tt)) hv hrest2
    have hskipv : skipWs (' ' :: ((dumpsAt lvl v).data ++
        (dictSep lvl (.cons k2 v2 tt) ++ (w ++ '\x7d' :: rest)))) =
        (dumpsAt lvl v).data ++
          (dictSep lvl (.cons k2 v2 tt) ++ (w ++ '\x7d' :: rest)) := by
      rw [@skipWs_cons_of_ws ' ' _ rfl]
      rw [hvh]
      exact skipWs_of_head _ hvw
    have hfresh : (dictKeys acc).contains k = false := hdisj k (by simp [dictKeys])
    simp only [parseObjItems]
    rw [if_pos (by decide)]
    rw [hsb]
    simp only [Option.bind_eq_bind, Option.some_bind]
    have hsc : skipWs (':' :: ' ' :: ((dumpsAt lvl v).data ++
        (dictSep lvl (.cons k2 v2 tt) ++ (w ++ '\x7d' :: rest)))) =
        ':' :: ' ' :: ((dumpsAt lvl v).data ++
          (dictSep lvl (.cons k2 v2 tt) ++ (w ++ '\x7d' :: rest))) :=
      skipWs_of_head _ rfl
    rw [hsc]
    simp only []
    rw [if_pos (by decide)]
    rw [hskipv, ha]
    simp only [Option.some_bind]
    rw [show (⟨k.data⟩ : String) = k from rfl]
    rw [dictSet_fresh k v acc hfresh]
    have hvt : wfVal v2 = true ∧ wfDict tt = true := by
      simpa [wfDict] using ht
    have hndp : ((!(dictKeys (PyDict.cons k2 v2 tt)).contains k) &&
        nodupKeysB (PyDict.cons k2 v2 tt)) = true := hnd
    rw [Bool.and_eq_true] at hndp
    have hnd2 : nodupKeysB (.cons k2 v2 tt) = true := hndp.2
    have hknotint : (dictKeys (PyDict.cons k2 v2 tt)).contains k = false := by
      cases hb2 : (dictKeys (PyDict.cons k2 v2 tt)).contains k with
      | false => rfl
      | true =>
        rw [hb2] at hndp
        exact absurd hndp.1 (by decide)
    have hdisj2 : ∀ k3 ∈ dictKeys (.cons k2 v2 tt),
        (dictKeys (dictCat acc (.cons k v .nil))).contains k3 = false := by
      intro k3 hk3
      rw [dictKeys_dictCat]
      refine contains_append_false _ _ _
        (hdisj k3 (by simp only [dictKeys]; exact List.mem_cons_of_mem _ hk3)) ?_
      show (dictKeys (PyDict.cons k v .nil)).contains k3 = false
      simp only [dictKeys, List.contains_cons]
      have hne : ¬ k3 = k := by
        intro hx
        subst hx
        have hcc : (dictKeys (PyDict.cons k2 v2 tt)).contains k3 = true := by
          simp only [List.contains_iff_exists_mem_beq]
          exact ⟨k3, hk3, by simp⟩
        rw [hcc] at hknotint
        exact absurd hknotint (by decide)
      simp [hne]
    have hd2 := parseObjItems_print k2 v2 tt lvl w rest (f + pySz v)
      (dictCat acc (.cons k v .nil)) hvt.1 hvt.2 hnd2 hdisj2 hw
    simp only [dictSep, List.cons_append, List.append_assoc]
    have hsc2 : skipWs (',' :: '\n' :: ((spaces (2 * lvl)).data ++ ((jsonQuote k2).data ++
        ':' :: ' ' :: ((dumpsAt lvl v2).data ++ (dictSep lvl tt ++
          (w ++ '\x7d' :: rest)))))) =
        ',' :: '\n' :: ((spaces (2 * lvl)).data ++ ((jsonQuote k2).data ++
          ':' :: ' ' :: ((dumpsAt lvl v2).data ++ (dictSep lvl tt ++
            (w ++ '\x7d' :: rest))))) := skipWs_of_head _ rfl
    rw [hsc2]
    simp only []
    rw [if_pos (by decide)]
    have hskip2 : skipWs ('\n' :: ((spaces (2 * lvl)).data ++ ((jsonQuote k2).data ++
        ':' :: ' ' :: ((dumpsAt lvl v2).data ++ (dictSep lvl tt ++
          (w ++ '\x7d' :: rest)))))) =
        (jsonQuote k2).data ++ ':' :: ' ' :: ((dumpsAt lvl v2).data ++
          (dictSep lvl tt ++ (w ++ '\x7d' :: rest))) := by
      rw [@skipWs_cons_of_ws '\n' _ rfl, skipWs_append_ws _ _ (spaces_ws _)]
      exact skipWs_of_head _ rfl
    rw [hskip2]
    rw [show (f + pySzD (PyDict.cons k2 v2 tt)) + pySz v =
        (f + pySz v) + (1 + pySz v2 + pySzD tt) by
      simp only [pySzD]
      omega]
    rw [hd2]
    rw [dictCat_assoc]
    rfl
termination_by k v t _ _ _ _ _ _ _ _ _ _ => 1 + sizeOf v + sizeOf t
decreasing_by
  all_goals simp_wf
  all_goals omega
end

mutual
/-- The fuel requirement of a value is at most its printed length. -/
theorem pySz_le_dumps : ∀ (v : PyVal) (lvl : Nat),
    pySz v ≤ (dumpsAt lvl v).data.length
  | .str s, _ => by
    show 1 ≤ ('"' :: (s.data.flatMap jsonEscChar ++ ['"'])).length
    simp
  | .int n, _ => by
    show 1 ≤ (intStr n).data.length
    by_cases hn : n < 0
    · rw [show intStr n = "-" ++ natStr n.natAbs from by simp [intStr, hn]]
      simp [String.data_append]
    · rw [show intStr n = natStr n.toNat from by simp [intStr, hn]]
      obtain ⟨h1, _, _, _⟩ := natStr_spec n.toNat
      have := List.length_pos.mpr h1
      omega
  | .bool true, _ => by
    show 1 ≤ ("true" : String).data.length
    decide
  | .bool false, _ => by
    show 1 ≤ ("false" : String).data.length
    decide
  | .noneVal, _ => by
    show 1 ≤ ("null" : String).data.length
    decide
  | .list .nil, _ => by
    show 1 + pySzL .nil ≤ ("[]" : String).data.length
    decide
  | .list (.cons x t), lvl => by
    have ihx := pySz_le_dumps x (lvl + 1)
    have iht := pySzL_le_sep t (lvl + 1)
    show 1 + pySzL (.cons x t) ≤ _
    rw [show pySzL (PyList.cons x t) = 1 + pySz x + pySzL t from rfl]
    have hd : (dumpsAt lvl (.list (.cons x t))).data =
        '[' :: '\n' :: ((spaces (2 * (lvl + 1))).data ++ ((dumpsAt (lvl + 1) x).data ++
          (listSep (lvl + 1) t ++ '\n' :: ((spaces (2 * lvl)).data ++ [']'])))) := by
      show ("[\n" ++ dumpsList (lvl + 1) (.cons x t) ++ "\n" ++
        spaces (2 * lvl) ++ "]").data = _
      simp [String.data_append, dumpsList_decomp]
    rw [hd]
    simp only [List.length_cons, List.length_append]
    omega
  | .dict .nil, _ => by
    show 1 + pySzD .nil ≤ ("\x7b\x7d" : String).data.length
    decide
  | .dict (.cons k v t), lvl => by
    have ihv := pySz_le_dumps v (lvl + 1)
    have iht := pySzD_le_sep t (lvl + 1)
    show 1 + pySzD (.cons k v t) ≤ _
    rw [show pySzD (PyDict.cons k v t) = 1 + pySz v + pySzD t from rfl]
    have hd : (dumpsAt lvl (.dict (.cons k v t))).data =
        '\x7b' :: '\n' :: ((spaces (2 * (lvl + 1))).data ++ ((jsonQuote k).data ++
          ':' :: ' ' :: ((dumpsAt (lvl + 1) v).data ++ (dictSep (lvl + 1) t ++
            '\n' :: ((spaces (2 * lvl)).data ++ ['\x7d']))))) := by
      show ("\x7b\n" ++ dumpsDict (lvl + 1) (.cons k v t) ++ "\n" ++
        spaces (2 * lvl) ++ "\x7d").data = _
      simp [String.data_append, dumpsDict_decomp]
    rw [hd]
    simp only [List.length_cons, List.length_append]
    omega
termination_by v _ => sizeOf v
decreasing_by
  all_goals simp_wf
  all_goals omega

/-- The fuel requirement of list items is at most the separator text length. -/
theorem pySzL_le_sep : ∀ (t : PyList) (lvl : Nat), pySzL t ≤ (listSep lvl t).length
  | .nil, _ => by simp [pySzL, listSep]
  | .cons y tt, lvl => by
    have ihy := pySz_le_dumps y lvl
    have iht := pySzL_le_sep tt lvl
    show 1 + pySz y + pySzL tt ≤ (listSep lvl (.cons y tt)).length
    rw [show listSep lvl (.cons y tt) = ',' :: '\n' :: ((spaces (2 * lvl)).data ++
      (dumpsAt lvl y).data ++ listSep lvl tt) from rfl]
    simp only [List.length_cons, List.length_append]
    omega
termination_by t _ => sizeOf t
decreasing_by
  all_goals simp_wf
  all_goals omega

/-- The fuel requirement of dict entries is at most the separator text length. -/
theorem pySzD_le_sep : ∀ (t : PyDict) (lvl : Nat), pySzD t ≤ (dictSep lvl t).length
  | .nil, _ => by simp [pySzD, dictSep]
  | .cons k2 v2 tt, lvl => by
    have ihv := pySz_le_dumps v2 lvl
    have iht := pySzD_le_sep tt lvl
    show 1 + pySz v2 + pySzD tt ≤ (dictSep lvl (.cons k2 v2 tt)).length
    rw [show dictSep lvl (.cons k2 v2 tt) = ',' :: '\n' :: ((spaces (2 * lvl)).data ++
      (jsonQuote k2).data ++ ':' :: ' ' :: ((dumpsAt lvl v2).data ++
        dictSep lvl tt)) from rfl]
    simp only [List.length_cons, List.length_append]
    omega
termination_by t _ => sizeOf t
decreasing_by
  all_goals simp_wf
  all_goals omega
end

/-- A well-formed value survives the `json.dumps`/`json.loads` round trip. -/
theorem jsonLoads_dumps (v : PyVal) (h : wfVal v = true) :
    jsonLoads (jsonDumps v) = some v := by
  obtain ⟨c0, cs0, hd, hw0, _, _⟩ := dumpsAt_head 0 v
  have hsz := pySz_le_dumps v 0
  have hp := parseVal_print v 0 [] ((jsonDumps v).length + 1 - pySz v) h rfl
  rw [List.append_nil] at hp
  have hskip : skipWs (jsonDumps v).data = (jsonDumps v).data := by
    rw [show (jsonDumps v).data = (dumpsAt 0 v).data from rfl, hd]
    exact skipWs_of_head _ hw0
  have hfuel : (jsonDumps v).length + 1 =
      ((jsonDumps v).length + 1 - pySz v) + pySz v := by
    have hle : pySz v ≤ (jsonDumps v).length := hsz
    omega
  simp only [jsonLoads, hskip]
  rw [hfuel]
  rw [show (jsonDumps v).data = (dumpsAt 0 v).data from rfl]
  rw [hp]
  rfl

/-- C9: for a `tool_use` segment whose `input` mapping is present and
non-empty, `format_tool_use` renders a fenced JSON code block containing
exactly `json.dumps(input, indent=2)`, and parsing that block content back
with `json.loads` yields the original input mapping. -/
theorem c9_tool_use_json_roundtrip (tool entries : PyDict)
    (hin : dictGetD tool "input" (.dict .nil) = .dict entries)
    (hne : pyTruthy (.dict entries) = true)
    (hwf : wfVal (.dict entries) = true) :
    format_tool_use tool =
      "**Tool:** `" ++ pyStr (dictGetD tool "name" (.str "Unknown")) ++ "`\n\n" ++
        "**Input:**\n```json\n" ++ jsonDumps (.dict entries) ++ "\n```\n" ∧
    jsonLoads (jsonDumps (.dict entries)) = some (.dict entries) := by
  refine ⟨?_, jsonLoads_dumps _ hwf⟩
  show (let name := dictGetD tool "name" (.str "Unknown")
        let toolInput := dictGetD tool "input" (.dict .nil)
        let md := "**Tool:** `" ++ pyStr name ++ "`\n\n"
        if pyTruthy toolInput then
          md ++ "**Input:**\n```json\n" ++ jsonDumps toolInput ++ "\n```\n"
        else md) = _
  rw [hin]
  rw [if_pos hne]

/-- Witness for C9 at the claim's example: name `Bash`,
input `\x7b"command": "ls"\x7d`. -/
theorem c9_tool_use_json_roundtrip_witness :
    dictGetD (.cons "name" (.str "Bash")
        (.cons "input" (.dict (.cons "command" (.str "ls") .nil)) .nil))
      "input" (.dict .nil) = .dict (.cons "command" (.str "ls") .nil) ∧
    pyTruthy (.dict (.cons "command" (.str "ls") .nil)) = true ∧
    wfVal (.dict (.cons "command" (.str "ls") .nil)) = true ∧
    (format_tool_use (.cons "name" (.str "Bash")
        (.cons "input" (.dict (.cons "command" (.str "ls") .nil)) .nil)) =
      "**Tool:** `" ++ pyStr (dictGetD (.cons "name" (.str "Bash")
        (.cons "input" (.dict (.cons "command" (.str "ls") .nil)) .nil))
          "name" (.str "Unknown")) ++ "`\n\n" ++
        "**Input:**\n```json\n" ++ jsonDumps (.dict (.cons "command" (.str "ls") .nil)) ++
          "\n```\n" ∧
      jsonLoads (jsonDumps (.dict (.cons "command" (.str "ls") .nil))) =
        some (.dict (.cons "command" (.str "ls") .nil))) :=
  ⟨rfl, rfl, rfl,
    c9_tool_use_json_roundtrip
      (.cons "name" (.str "Bash")
        (.cons "input" (.dict (.cons "command" (.str "ls") .nil)) .nil))
      (.cons "command" (.str "ls") .nil) rfl rfl rfl⟩

/-! ## Region lemmas for the redaction scanner

Infrastructure for the amended forms of the redaction claims: a pass is
the identity where nothing matches, it copies prefixes whose characters
block every match, and matched text always has the corresponding pattern
shape, so shape-free regions survive. -/

/-- Characters no redaction pattern can touch: outside the email
local-part class (hence not alphanumeric and not `.%+-_`), not `@`, and
not `<` (the sentinel opener). -/
def inertChar (c : Char) : Bool := !isLocalChar c && !(c == '@') && !(c == '<')

/-- The scanning context after copying `x`: the last character of `x`, or
the incoming context when `x` is empty. -/
def prevAfter (prev : Option Char) (x : List Char) : Option Char :=
  match x.reverse with
  | [] => prev
  | c :: _ => some c

theorem prevAfter_cons (prev : Option Char) (c : Char) (x : List Char) :
    prevAfter prev (c :: x) = prevAfter (some c) x := by
  unfold prevAfter
  rw [List.reverse_cons]
  cases hx : x.reverse with
  | nil => rfl
  | cons d r => rfl

/-- A substitution pass is the identity when the matcher fails on every
suffix, whatever the context. -/
theorem scanRepl_id_all (try_ : Option Char → List Char → Option Nat) (repl : List Char) :
    ∀ (s : List Char) (prev : Option Char),
      (∀ (p : Option Char) (u : List Char), u <:+ s → try_ p u = none) →
      scanRepl try_ repl prev s = s
  | [], _, _ => rfl
  | c :: rest, prev, h => by
    rw [scanRepl_cons]
    rw [h prev (c :: rest) (List.suffix_refl _)]
    exact congrArg _ (scanRepl_id_all try_ repl rest (some c) (fun p u hu =>
      h p u (hu.trans (List.suffix_cons c rest))))

/-- A substitution pass copies every character of a prefix whose
characters each block the matcher outright. -/
theorem scanRepl_skip (try_ : Option Char → List Char → Option Nat) (repl : List Char)
    (B : Char → Bool)
    (hB : ∀ (p : Option Char) (c : Char) (rest : List Char), B c = true →
      try_ p (c :: rest) = none) :
    ∀ (x r : List Char) (prev : Option Char), (∀ c ∈ x, B c = true) →
      scanRepl try_ repl prev (x ++ r) =
        x ++ scanRepl try_ repl (prevAfter prev x) r
  | [], _, _, _ => rfl
  | c :: x, r, prev, hx => by
    rw [List.cons_append, scanRepl_cons, hB prev c _ (hx c (by simp))]
    rw [prevAfter_cons]
    exact congrArg _ (scanRepl_skip try_ repl B hB x r (some c)
      (fun d hd => hx d (by simp [hd])))

/-- `hasSubSat` holds as soon as one infix satisfies the predicate. -/
theorem hasSubSat_of_infix (f : List Char → Bool) (s u : List Char)
    (hu : u <:+: s) (hf : f u = true) : hasSubSat f s = true := by
  obtain ⟨p, q, hpq⟩ := hu
  rw [← hpq]
  unfold hasSubSat
  rw [List.any_eq_true]
  refine ⟨p.length, List.mem_range.mpr (by simp [List.length_append]; omega), ?_⟩
  rw [List.any_eq_true]
  refine ⟨u.length, List.mem_range.mpr (by simp [List.length_append]; omega), ?_⟩
  have hd : (p ++ u ++ q).drop p.length = u ++ q := by
    rw [List.append_assoc, List.drop_left]
  rw [hd, List.take_left]
  exact hf

/-- Conversely, `hasSubSat` produces a witness infix. -/
theorem infix_of_hasSubSat (f : List Char → Bool) (s : List Char)
    (h : hasSubSat f s = true) : ∃ u, u <:+: s ∧ f u = true := by
  unfold hasSubSat at h
  rw [List.any_eq_true] at h
  obtain ⟨i, _, hi⟩ := h
  rw [List.any_eq_true] at hi
  obtain ⟨l, _, hl⟩ := hi
  exact ⟨(s.drop i).take l,
    ((List.take_prefix l (s.drop i)).isInfix).trans (List.drop_suffix i s).isInfix, hl⟩

/-- A pass is the identity on inputs without a match-shaped substring. -/
theorem scanRepl_id_of_no_shape (try_ : Option Char → List Char → Option Nat)
    (repl : List Char) (P : List Char → Bool)
    (hshape : ∀ p u n, try_ p u = some n → P (u.take n) = true) :
    ∀ (s : List Char) (prev : Option Char), hasSubSat P s = false →
      scanRepl try_ repl prev s = s := by
  intro s prev hs
  apply scanRepl_id_all
  intro p u hu
  cases h : try_ p u with
  | none => rfl
  | some n =>
    exfalso
    have hP := hshape p u n h
    have htrue : hasSubSat P s = true :=
      hasSubSat_of_infix P s (u.take n)
        ((List.take_prefix n u).isInfix.trans hu.isInfix) hP
    rw [htrue] at hs
    cases hs

/-- A successful `descFind` comes from a successful candidate in range. -/
theorem descFind_some (f : Nat → Option Nat) : ∀ (m n : Nat), descFind f m = some n →
    ∃ k, 1 ≤ k ∧ k ≤ m ∧ f k = some n
  | 0, _, h => by cases h
  | m + 1, n, h => by
    rw [descFind] at h
    cases hf : f (m + 1) with
    | some r =>
      rw [hf] at h
      exact ⟨m + 1, by omega, Nat.le_refl _, by rw [hf]; exact h⟩
    | none =>
      rw [hf] at h
      obtain ⟨k, h1, h2, h3⟩ := descFind_some f m n h
      exact ⟨k, h1, by omega, h3⟩

/-- `descFind` returns the highest successful candidate: if everything
above `j` fails and `j` succeeds, the search returns `f j`. -/
theorem descFind_eq (f : Nat → Option Nat) : ∀ (m j v : Nat), 1 ≤ j → j ≤ m →
    f j = some v → (∀ k, j < k → k ≤ m → f k = none) → descFind f m = some v
  | 0, _, _, hj1, hjm, _, _ => by omega
  | m + 1, j, v, hj1, hjm, hf, hnone => by
    rw [descFind]
    by_cases hje : j = m + 1
    · subst hje
      rw [hf]
    · have hfm : f (m + 1) = none := hnone (m + 1) (by omega) (Nat.le_refl _)
      rw [hfm]
      exact descFind_eq f m j v hj1 (by omega) hf
        (fun k hk1 hk2 => hnone k hk1 (by omega))

/-- The greedy run length of an all-satisfying block followed by a
blocked character. -/
theorem runLen_append (f : Char → Bool) (u v : List Char)
    (hu : ∀ c ∈ u, f c = true) (hv : ∀ c ∈ v.take 1, f c = false) :
    runLen f (u ++ v) = u.length := by
  unfold runLen
  rw [(takeWhile_append_all f u v hu hv).1]

/-- Every character within the greedy run satisfies the class. -/
theorem all_take_of_le_runLen (f : Char → Bool) (s : List Char) (k : Nat)
    (hk : k ≤ runLen f s) : (s.take k).all f = true := by
  rw [List.all_eq_true]
  intro c hc
  have hsplit : s.take k = (s.takeWhile f).take k := by
    conv_lhs => rw [← List.takeWhile_append_dropWhile f s]
    rw [List.take_append_eq_append_take]
    have : k - (s.takeWhile f).length = 0 := by
      unfold runLen at hk
      omega
    rw [this, List.take_zero, List.append_nil]
  rw [hsplit] at hc
  exact List.mem_takeWhile_imp (List.take_subset k _ hc)

/-- A literal match consumes exactly the literal. -/
theorem tryLit_some (lit s : List Char) (n : Nat) (h : tryLit lit s = some n) :
    n = lit.length ∧ s.take n = lit := by
  unfold tryLit at h
  by_cases hp : lit.isPrefixOf s = true
  case neg => rw [if_neg hp] at h; cases h
  rw [if_pos hp] at h
  have hn : lit.length = n := Option.some.inj h
  subst hn
  exact ⟨rfl, (List.prefix_iff_eq_take.mp (List.isPrefixOf_iff_prefix.mp hp)).symm⟩

/-- A client-secret match consumes exactly a secret-shaped string. -/
theorem trySecret_shape (s : List Char) (n : Nat) (h : trySecret s = some n) :
    isSecretShape (s.take n) = true ∧ 1 ≤ n ∧ n ≤ s.length := by
  unfold trySecret at h
  by_cases hp : gsecHead.isPrefixOf s = true
  case neg => rw [if_neg hp] at h; cases h
  rw [if_pos hp] at h
  by_cases hc : 28 ≤ (s.drop 7).length ∧ ((s.drop 7).take 28).all isSecretChar = true
  case neg => rw [if_neg hc] at h; cases h
  rw [if_pos hc] at h
  have hn : (35 : Nat) = n := Option.some.inj h
  subst hn
  obtain ⟨r, hr⟩ := List.isPrefixOf_iff_prefix.mp hp
  have hdrop : s.drop 7 = r := by
    rw [← hr]
    exact List.drop_left gsecHead r
  have hr28 : 28 ≤ r.length := by
    have h1 := hc.1
    rw [hdrop] at h1
    exact h1
  have hlen : 35 ≤ s.length := by
    have h1 := hc.1
    rw [List.length_drop] at h1
    omega
  have htake : s.take 35 = gsecHead ++ r.take 28 := by
    rw [← hr, List.take_append_eq_append_take,
      List.take_of_length_le (show gsecHead.length ≤ 35 by decide)]
    rfl
  refine ⟨?_, by omega, hlen⟩
  rw [htake]
  have e1 : gsecHead.isPrefixOf (gsecHead ++ r.take 28) = true :=
    List.isPrefixOf_iff_prefix.mpr ⟨r.take 28, rfl⟩
  have e2 : (gsecHead ++ r.take 28).length = 35 := by
    rw [List.length_append, List.length_take]
    show 7 + min 28 r.length = 35
    omega
  have e3 : (gsecHead ++ r.take 28).drop 7 = r.take 28 :=
    List.drop_left gsecHead (r.take 28)
  have e4 : (r.take 28).all isSecretChar = true := by
    rw [← hdrop]
    exact hc.2
  simp [isSecretShape, e1, e2, e3, e4]


/-- A client-id match consumes exactly a client-id-shaped string. -/
theorem tryGcid_shape (s : List Char) (n : Nat) (h : tryGcid s = some n) :
    isGcidShape (s.take n) = true ∧ 1 ≤ n ∧ n ≤ s.length := by
  unfold tryGcid at h
  set d := runLen Char.isDigit s with hdd
  by_cases hd0 : d = 0
  case pos => rw [if_pos hd0] at h; cases h
  rw [if_neg hd0] at h
  cases hsd : s.drop d with
  | nil => rw [hsd] at h; cases h
  | cons c rest2 =>
    rw [hsd] at h
    simp only [] at h
    by_cases hcdash : (c == '-') = true
    case neg => rw [if_neg hcdash] at h; cases h
    rw [if_pos hcdash] at h
    have hcd : c = '-' := by
      have hx := hcdash
      rw [beq_iff_eq] at hx
      exact hx
    subst hcd
    obtain ⟨k, hk1, hk2, hkf⟩ := descFind_some _ _ _ h
    by_cases hpre : gcidTail.isPrefixOf (rest2.drop k) = true
    case neg => rw [if_neg hpre] at hkf; cases hkf
    rw [if_pos hpre] at hkf
    have hn : d + 1 + k + gcidTail.length = n := Option.some.inj hkf
    have hgl : gcidTail.length = 27 := by decide
    rw [hgl] at hn
    subst hn
    have hslen : s.length = d + 1 + rest2.length := by
      have hx := congrArg List.length hsd
      rw [List.length_drop, List.length_cons] at hx
      have hdle : d ≤ s.length := by
        rw [hdd]
        exact (List.takeWhile_prefix Char.isDigit).length_le
      omega
    have hkr : k ≤ rest2.length := by
      have hx : runLen isLowerDigit rest2 ≤ rest2.length :=
        (List.takeWhile_prefix isLowerDigit).length_le
      omega
    have hr2 : 27 ≤ rest2.length - k := by
      have hx : gcidTail.length ≤ (rest2.drop k).length :=
        (List.isPrefixOf_iff_prefix.mp hpre).length_le
      rw [List.length_drop, hgl] at hx
      exact hx
    have hdig : ∀ c ∈ s.take d, Char.isDigit c = true := by
      intro c hc
      have htw : s.take d = s.takeWhile Char.isDigit := by
        rw [hdd]
        exact (List.prefix_iff_eq_take.mp (List.takeWhile_prefix Char.isDigit)).symm
      rw [htw] at hc
      exact List.mem_takeWhile_imp hc
    have hsplit : s = s.take d ++ '-' :: rest2 := by
      conv_lhs => rw [← List.take_append_drop d s]
      rw [hsd]
    have hTlen : (s.take d).length = d := by
      rw [List.length_take]
      omega
    have htake : s.take (d + 1 + k + 27) =
        s.take d ++ '-' :: rest2.take (k + 27) := by
      conv_lhs => rw [hsplit]
      rw [List.take_append_eq_append_take, hTlen,
        List.take_of_length_le (by rw [hTlen]; omega)]
      rw [show d + 1 + k + 27 - d = (k + 27) + 1 from by omega]
      rfl
    have hRlen : (rest2.take (k + 27)).length = k + 27 := by
      rw [List.length_take]
      omega
    have hRtake : (rest2.take (k + 27)).take k = rest2.take k := by
      rw [List.take_take]
      congr 1
      omega
    have hRdrop : (rest2.take (k + 27)).drop k = gcidTail := by
      rw [List.drop_take]
      rw [show k + 27 - k = 27 from by omega]
      have hx := (List.prefix_iff_eq_take.mp (List.isPrefixOf_iff_prefix.mp hpre))
      rw [hgl] at hx
      exact hx.symm
    have hlow : (rest2.take k).all isLowerDigit = true :=
      all_take_of_le_runLen isLowerDigit rest2 k hk2
    refine ⟨?_, by omega, by omega⟩
    rw [htake]
    have e_run : runLen Char.isDigit (s.take d ++ '-' :: rest2.take (k + 27)) = d := by
      rw [runLen_append Char.isDigit _ _ hdig
        (by intro c hc; simp at hc; subst hc; decide), hTlen]
    have e_drop : (s.take d ++ '-' :: rest2.take (k + 27)).drop d = '-' :: rest2.take (k + 27) := by
      have hx := List.drop_left (s.take d) ('-' :: rest2.take (k + 27))
      rw [hTlen] at hx
      exact hx
    unfold isGcidShape
    rw [e_run]
    simp only []
    rw [e_drop]
    simp only [hRlen, hgl]
    rw [show k + 27 - 27 = k from by omega]
    rw [hRtake, hRdrop]
    simp [hlow, hk1, Nat.one_le_iff_ne_zero.mpr hd0]

/-- An email match consumes exactly an email-shaped string. -/
theorem tryEmail_shape (p : Option Char) (s : List Char) (n : Nat)
    (h : tryEmail p s = some n) :
    isEmailShape (s.take n) = true ∧ 1 ≤ n ∧ n ≤ s.length := by
  unfold tryEmail at h
  cases s with
  | nil => cases h
  | cons c s' =>
    simp only [] at h
    by_cases hc1 : (!isLocalChar c) = true
    case pos => rw [if_pos hc1] at h; cases h
    rw [if_neg hc1] at h
    by_cases hc2 : (!wordBoundary p c) = true
    case pos => rw [if_pos hc2] at h; cases h
    rw [if_neg hc2] at h
    have hc1' : isLocalChar c = true := by
      simpa using hc1
    set l := runLen isLocalChar (c :: s') with hll
    cases hdl : (c :: s').drop l with
    | nil => rw [hdl] at h; cases h
    | cons a rest2 =>
      rw [hdl] at h
      simp only [] at h
      by_cases hat : (a == '@') = true
      case neg => rw [if_neg hat] at h; cases h
      rw [if_pos hat] at h
      have ha : a = '@' := by rwa [beq_iff_eq] at hat
      subst ha
      by_cases hlk : lookaheadHit rest2 = true
      case pos => rw [if_pos hlk] at h; cases h
      rw [if_neg hlk] at h
      obtain ⟨j, hj1, hj2, hjf⟩ := descFind_some _ _ _ h
      cases hdj : rest2.drop j with
      | nil => rw [hdj] at hjf; cases hjf
      | cons dot restTld =>
        rw [hdj] at hjf
        simp only [] at hjf
        by_cases hdot : (dot == '.') = true
        case neg => rw [if_neg hdot] at hjf; cases hjf
        rw [if_pos hdot] at hjf
        have hdot' : dot = '.' := by rwa [beq_iff_eq] at hdot
        subst hdot'
        set t := runLen Char.isAlpha restTld with htt
        by_cases hcond : 2 ≤ t ∧ tldBoundary rest2 (j + 1 + t) = true
        case neg => rw [if_neg hcond] at hjf; cases hjf
        rw [if_pos hcond] at hjf
        have hn : l + 1 + j + 1 + t = n := Option.some.inj hjf
        subst hn
        have hlle : l ≤ (c :: s').length := by
          rw [hll]
          exact (List.takeWhile_prefix isLocalChar).length_le
        have hslen : (c :: s').length = l + 1 + rest2.length := by
          have hx := congrArg List.length hdl
          rw [List.length_drop, List.length_cons, List.length_cons] at hx
          rw [List.length_cons]
          omega
        have hjm : j ≤ rest2.length := by
          have hx : runLen isDomChar rest2 ≤ rest2.length :=
            (List.takeWhile_prefix isDomChar).length_le
          omega
        have hr2len : rest2.length = j + 1 + restTld.length := by
          have hx := congrArg List.length hdj
          rw [List.length_drop, List.length_cons] at hx
          omega
        have htle : t ≤ restTld.length := by
          rw [htt]
          exact (List.takeWhile_prefix Char.isAlpha).length_le
        have hlocal : ∀ ch ∈ (c :: s').take l, isLocalChar ch = true := by
          intro ch hch
          have htw : (c :: s').take l = (c :: s').takeWhile isLocalChar := by
            rw [hll]
            exact (List.prefix_iff_eq_take.mp (List.takeWhile_prefix isLocalChar)).symm
          rw [htw] at hch
          exact List.mem_takeWhile_imp hch
        have hdomall : ∀ ch ∈ rest2.take j, isDomChar ch = true := by
          intro ch hch
          have := all_take_of_le_runLen isDomChar rest2 j hj2
          rw [List.all_eq_true] at this
          exact this ch hch
        have htalpha : ∀ ch ∈ restTld.take t, Char.isAlpha ch = true := by
          intro ch hch
          have htw : restTld.take t = restTld.takeWhile Char.isAlpha := by
            rw [htt]
            exact (List.prefix_iff_eq_take.mp (List.takeWhile_prefix Char.isAlpha)).symm
          rw [htw] at hch
          exact List.mem_takeWhile_imp hch
        have hLlen : ((c :: s').take l).length = l := by
          rw [List.length_take]
          omega
        have hDlen : (rest2.take j).length = j := by
          rw [List.length_take]
          omega
        have hTlen2 : (restTld.take t).length = t := by
          rw [List.length_take]
          omega
        have hsplit : c :: s' = (c :: s').take l ++ '@' :: rest2 := by
          conv_lhs => rw [← List.take_append_drop l (c :: s')]
          rw [hdl]
        have hsplit2 : rest2 = rest2.take j ++ '.' :: restTld := by
          conv_lhs => rw [← List.take_append_drop j rest2]
          rw [hdj]
        have htake2 : rest2.take (j + 1 + t) =
            rest2.take j ++ '.' :: restTld.take t := by
          conv_lhs => rw [hsplit2]
          rw [List.take_append_eq_append_take, hDlen,
            List.take_of_length_le (by rw [hDlen]; omega)]
          rw [show j + 1 + t - j = t + 1 from by omega]
          rfl
        have htake : (c :: s').take (l + 1 + j + 1 + t) =
            (c :: s').take l ++ '@' :: (rest2.take j ++ '.' :: restTld.take t) := by
          conv_lhs => rw [hsplit]
          rw [List.take_append_eq_append_take, hLlen,
            List.take_of_length_le (by rw [hLlen]; omega)]
          rw [show l + 1 + j + 1 + t - l = (j + 1 + t) + 1 from by omega]
          rw [List.take_succ_cons, htake2]
        refine ⟨?_, by omega, by omega⟩
        rw [htake]
        have e_run : runLen isLocalChar
            ((c :: s').take l ++ '@' :: (rest2.take j ++ '.' :: restTld.take t)) = l := by
          rw [runLen_append isLocalChar _ _ hlocal
            (by intro ch hch; simp at hch; subst hch; decide), hLlen]
        have e_drop : ((c :: s').take l ++ '@' :: (rest2.take j ++ '.' :: restTld.take t)).drop l
            = '@' :: (rest2.take j ++ '.' :: restTld.take t) := by
          have hx := List.drop_left ((c :: s').take l)
            ('@' :: (rest2.take j ++ '.' :: restTld.take t))
          rw [hLlen] at hx
          exact hx
        have e_rev : (rest2.take j ++ '.' :: restTld.take t).reverse =
            (restTld.take t).reverse ++ '.' :: (rest2.take j).reverse := by
          simp
        have e_revrun : runLen Char.isAlpha
            ((restTld.take t).reverse ++ '.' :: (rest2.take j).reverse) = t := by
          rw [runLen_append Char.isAlpha _ _
            (by
              intro ch hch
              exact htalpha ch (List.mem_reverse.mp hch))
            (by intro ch hch; simp at hch; subst hch; decide)]
          rw [List.length_reverse, hTlen2]
        have e_revdrop : (((restTld.take t).reverse ++ '.' :: (rest2.take j).reverse)).drop t
            = '.' :: (rest2.take j).reverse := by
          have hx := List.drop_left ((restTld.take t).reverse)
            ('.' :: (rest2.take j).reverse)
          rw [List.length_reverse, hTlen2] at hx
          exact hx
        have e_ne : ((rest2.take j).reverse).isEmpty = false := by
          cases hemp : ((rest2.take j).reverse).isEmpty
          · rfl
          · exfalso
            have hnil : (rest2.take j).reverse = [] := List.isEmpty_iff.mp hemp
            have h0 := congrArg List.length hnil
            rw [List.length_reverse, hDlen] at h0
            simp at h0
            omega
        have e_domall : ((rest2.take j).reverse).all isDomChar = true := by
          rw [List.all_eq_true]
          intro ch hch
          exact hdomall ch (List.mem_reverse.mp hch)
        have hl1 : 1 ≤ l := by
          rw [hll]
          unfold runLen
          rw [List.takeWhile_cons_of_pos hc1']
          simp
        unfold isEmailShape
        rw [e_run]
        simp only []
        rw [e_drop]
        simp only [e_rev, e_revrun, e_revdrop, e_ne, e_domall]
        simp [hcond.1, hl1]

/-- **C4** (amended): redaction is the identity on every string that
contains no client-id-shaped substring, no client-secret-shaped substring,
no email-shaped substring (allow-listed or not), and no occurrence of the
internal sentinel `<<<PROTECTED_NOREPLY>>>`.  The sentinel condition is
the correction forced by `c4_counterexample`. -/
theorem c4_amended (t : List Char)
    (hg : hasSubSat isGcidShape t = false)
    (hsec : hasSubSat isSecretShape t = false)
    (hem : hasSubSat isEmailShape t = false)
    (hsent : hasSubSat (fun u => u == sentinelL) t = false) :
    redactL t = t := by
  have p1 : scanRepl (fun _ s => tryGcid s) gcidRepl none t = t :=
    scanRepl_id_of_no_shape _ gcidRepl isGcidShape
      (fun _ u n h => (tryGcid_shape u n h).1) t none hg
  have p2 : scanRepl (fun _ s => trySecret s) gsecRepl none t = t :=
    scanRepl_id_of_no_shape _ gsecRepl isSecretShape
      (fun _ u n h => (trySecret_shape u n h).1) t none hsec
  have p3 : scanRepl (fun _ s => tryLit noreplyL s) sentinelL none t = t :=
    scanRepl_id_of_no_shape _ sentinelL isEmailShape
      (fun _ u n h => by
        obtain ⟨_, htk⟩ := tryLit_some noreplyL u n h
        rw [htk]
        decide) t none hem
  have p4 : scanRepl tryEmail emailRepl none t = t :=
    scanRepl_id_of_no_shape tryEmail emailRepl isEmailShape
      (fun p u n h => (tryEmail_shape p u n h).1) t none hem
  have p5 : scanRepl (fun _ s => tryLit sentinelL s) noreplyL none t = t :=
    scanRepl_id_of_no_shape _ noreplyL (fun u => u == sentinelL)
      (fun _ u n h => by
        obtain ⟨_, htk⟩ := tryLit_some sentinelL u n h
        rw [htk]
        simp) t none hsent
  show scanRepl (fun _ s => tryLit sentinelL s) noreplyL none
      (scanRepl tryEmail emailRepl none
        (scanRepl (fun _ s => tryLit noreplyL s) sentinelL none
          (scanRepl (fun _ s => trySecret s) gsecRepl none
            (scanRepl (fun _ s => tryGcid s) gcidRepl none t)))) = t
  rw [p1, p2, p3, p4, p5]

/-- Witness for the amended C4 on the pattern-free text `"See you at 5."`. -/
theorem c4_amended_witness :
    hasSubSat isGcidShape "See you at 5.".toList = false ∧
    hasSubSat isSecretShape "See you at 5.".toList = false ∧
    hasSubSat isEmailShape "See you at 5.".toList = false ∧
    hasSubSat (fun u => u == sentinelL) "See you at 5.".toList = false ∧
    redactL "See you at 5.".toList = "See you at 5.".toList :=
  ⟨by decide, by decide, by decide, by decide,
    c4_amended "See you at 5.".toList (by decide) (by decide) (by decide) (by decide)⟩

/-- Digits are local-part characters. -/
theorem localChar_of_digit {c : Char} (h : c.isDigit = true) : isLocalChar c = true := by
  simp [isLocalChar, h]

/-- Word characters are local-part characters. -/
theorem localChar_of_word {c : Char} (h : isWordChar c = true) : isLocalChar c = true := by
  unfold isWordChar at h
  unfold isLocalChar
  rcases Bool.or_eq_true_iff.mp h with h1 | h1
  · rcases Bool.or_eq_true_iff.mp h1 with h2 | h2 <;> simp [h2]
  · simp [h1]

/-- Domain characters are local-part characters. -/
theorem localChar_of_dom {c : Char} (h : isDomChar c = true) : isLocalChar c = true := by
  unfold isDomChar at h
  unfold isLocalChar
  rcases Bool.or_eq_true_iff.mp h with h1 | h1
  · rcases Bool.or_eq_true_iff.mp h1 with h2 | h2
    · rcases Bool.or_eq_true_iff.mp h2 with h3 | h3 <;> simp [h3]
    · simp [h2]
  · simp [h1]

/-- Letters are local-part characters. -/
theorem localChar_of_alpha {c : Char} (h : c.isAlpha = true) : isLocalChar c = true := by
  simp [isLocalChar, h]

/-- Inert characters are not local, not `@`, and not `<`. -/
theorem inertChar_spec {c : Char} (h : inertChar c = true) :
    isLocalChar c = false ∧ (c == '@') = false ∧ (c == '<') = false := by
  unfold inertChar at h
  simp only [Bool.and_eq_true] at h
  obtain ⟨⟨h4, h5⟩, h3⟩ := h
  exact ⟨by simpa using h4, by simpa using h5, by simpa using h3⟩

/-- The head of a nonempty take is the head of the list. -/
theorem head_mem_take {c : Char} (rest : List Char) (n : Nat) (hn : 1 ≤ n) :
    c ∈ (c :: rest).take n := by
  rw [show n = (n - 1) + 1 from by omega, List.take_succ_cons]
  simp

/-- A matcher whose matches are made of `A`-characters and are
match-shaped is blocked at every non-`A` head character. -/
theorem try_blocked_of_shape (try_ : Option Char → List Char → Option Nat)
    (P : List Char → Bool) (A : Char → Bool)
    (hshape : ∀ p u n, try_ p u = some n → 1 ≤ n ∧ P (u.take n) = true)
    (hchars : ∀ u, P u = true → ∀ c ∈ u, A c = true)
    (p : Option Char) (c : Char) (rest : List Char) (hc : A c = false) :
    try_ p (c :: rest) = none := by
  cases hv : try_ p (c :: rest) with
  | none => rfl
  | some n =>
    exfalso
    obtain ⟨hn1, hP⟩ := hshape p _ n hv
    have := hchars _ hP c (head_mem_take rest n hn1)
    rw [hc] at this
    cases this

/-- Scanning a middle region with no match-shaped substring, followed by
a blocked region, changes nothing. -/
theorem scanRepl_frame_mid (try_ : Option Char → List Char → Option Nat)
    (repl : List Char) (P : List Char → Bool) (A : Char → Bool)
    (hshape : ∀ p u n, try_ p u = some n → 1 ≤ n ∧ P (u.take n) = true)
    (hchars : ∀ u, P u = true → ∀ c ∈ u, A c = true)
    (hPnil : P [] = false)
    (a y : List Char) (hy : ∀ c ∈ y, A c = false)
    (ha : hasSubSat P a = false) :
    ∀ (u : List Char), u <:+ a → ∀ (p : Option Char),
      scanRepl try_ repl p (u ++ y) = u ++ y
  | [], _, p => by
    simp only [List.nil_append]
    apply scanRepl_id_all
    intro p' v _hv
    cases v with
    | nil =>
      cases hv' : try_ p' [] with
      | none => rfl
      | some n =>
        exfalso
        obtain ⟨_, hP⟩ := hshape p' [] n hv'
        rw [List.take_nil, hPnil] at hP
        cases hP
    | cons c v' =>
      exact try_blocked_of_shape try_ P A hshape hchars p' c v'
        (hy c (_hv.subset (by simp)))
  | c :: u', hu, p => by
    rw [List.cons_append, scanRepl_cons]
    have hnone : try_ p (c :: (u' ++ y)) = none := by
      cases hv : try_ p (c :: (u' ++ y)) with
      | none => rfl
      | some n =>
        exfalso
        obtain ⟨hn1, hP⟩ := hshape p _ n hv
        by_cases hny : (c :: u').length < n ∧ y ≠ []
        · obtain ⟨hlt, hye⟩ := hny
          cases y with
          | nil => exact hye rfl
          | cons y0 y' =>
            have hy0 : y0 ∈ (c :: (u' ++ y0 :: y')).take n := by
              rw [show c :: (u' ++ y0 :: y') = (c :: u') ++ y0 :: y' from rfl]
              rw [List.take_append_eq_append_take]
              apply List.mem_append.mpr
              right
              rw [show n - (c :: u').length = (n - (c :: u').length - 1) + 1 from by
                rw [List.length_cons] at hlt ⊢
                omega]
              rw [List.take_succ_cons]
              simp
            have hA := hchars _ hP y0 hy0
            rw [hy y0 (by simp)] at hA
            cases hA
        · have hcases : n ≤ (c :: u').length ∨ y = [] := by
            rcases not_and_or.mp hny with h2 | h2
            · left; omega
            · right; exact not_not.mp h2
          have hn2 : (c :: (u' ++ y)).take n = (c :: u').take n := by
            rw [show c :: (u' ++ y) = (c :: u') ++ y from rfl]
            rcases hcases with h2 | h2
            · rw [List.take_append_eq_append_take,
                show n - (c :: u').length = 0 from by omega,
                List.take_zero, List.append_nil]
            · subst h2
              rw [List.append_nil]
          rw [hn2] at hP
          have hinf : ((c :: u').take n) <:+: a :=
            (List.take_prefix n (c :: u')).isInfix.trans hu.isInfix
          have := hasSubSat_of_infix P a _ hinf hP
          rw [ha] at this
          cases this
    rw [hnone]
    exact congrArg _ (scanRepl_frame_mid try_ repl P A hshape hchars hPnil a y hy ha
      u' ((List.suffix_cons c u').trans hu) (some c))

/-- A full frame: the scanner is the identity on `x ++ a ++ y` when `x`
and `y` consist of non-match characters and `a` has no match-shaped
substring. -/
theorem scanRepl_frame (try_ : Option Char → List Char → Option Nat)
    (repl : List Char) (P : List Char → Bool) (A : Char → Bool)
    (hshape : ∀ p u n, try_ p u = some n → 1 ≤ n ∧ P (u.take n) = true)
    (hchars : ∀ u, P u = true → ∀ c ∈ u, A c = true)
    (hPnil : P [] = false)
    (x a y : List Char) (prev : Option Char)
    (hx : ∀ c ∈ x, A c = false) (hy : ∀ c ∈ y, A c = false)
    (ha : hasSubSat P a = false) :
    scanRepl try_ repl prev (x ++ (a ++ y)) = x ++ (a ++ y) := by
  rw [scanRepl_skip try_ repl (fun c => !A c)
    (fun p c rest hc => try_blocked_of_shape try_ P A hshape hchars p c rest
      (by simpa using hc))
    x (a ++ y) prev (fun c hc => by simp [hx c hc])]
  rw [scanRepl_frame_mid try_ repl P A hshape hchars hPnil a y hy ha
    a (List.suffix_refl a) (prevAfter prev x)]

/-- Lower-case-or-digit characters are local-part characters. -/
theorem localChar_of_lowerDigit {c : Char} (h : isLowerDigit c = true) :
    isLocalChar c = true := by
  unfold isLowerDigit at h
  rcases Bool.or_eq_true_iff.mp h with h1 | h1
  · exact localChar_of_alpha (by simp [Char.isAlpha, h1])
  · exact localChar_of_digit h1

/-- Client-secret characters are local-part characters. -/
theorem localChar_of_secretChar {c : Char} (h : isSecretChar c = true) :
    isLocalChar c = true := by
  unfold isSecretChar at h
  unfold isLocalChar
  rcases Bool.or_eq_true_iff.mp h with h1 | h1
  · rcases Bool.or_eq_true_iff.mp h1 with h2 | h2
    · rcases Bool.or_eq_true_iff.mp h2 with h3 | h3 <;> simp [h3]
    · simp [h2]
  · simp [h1]

/-- Every character of a client-id-shaped string is a local-part
character. -/
theorem gcidShape_chars (u : List Char) (h : isGcidShape u = true) :
    ∀ c ∈ u, isLocalChar c = true := by
  unfold isGcidShape at h
  simp only [Bool.and_eq_true, decide_eq_true_eq] at h
  obtain ⟨hd1, hm⟩ := h
  split at hm
  case _ rest2 heq =>
    simp only [Bool.and_eq_true, decide_eq_true_eq] at hm
    obtain ⟨⟨hk1, hlow⟩, htail⟩ := hm
    have htail2 : rest2.drop (rest2.length - gcidTail.length) = gcidTail := eq_of_beq htail
    have hu : u = u.take (runLen Char.isDigit u) ++ '-' :: rest2 := by
      conv_lhs => rw [← List.take_append_drop (runLen Char.isDigit u) u]
      rw [heq]
    have hr : rest2 = rest2.take (rest2.length - gcidTail.length) ++ gcidTail := by
      conv_lhs => rw [← List.take_append_drop (rest2.length - gcidTail.length) rest2]
      rw [htail2]
    intro c hc
    rw [hu] at hc
    rcases List.mem_append.mp hc with hc1 | hc1
    · have htw : u.take (runLen Char.isDigit u) = u.takeWhile Char.isDigit :=
        (List.prefix_iff_eq_take.mp (List.takeWhile_prefix Char.isDigit)).symm
      rw [htw] at hc1
      exact localChar_of_digit (List.mem_takeWhile_imp hc1)
    · rcases List.mem_cons.mp hc1 with hc2 | hc2
      · subst hc2
        decide
      · rw [hr] at hc2
        rcases List.mem_append.mp hc2 with hc3 | hc3
        · rw [List.all_eq_true] at hlow
          exact localChar_of_lowerDigit (hlow c hc3)
        · exact (by decide : ∀ c ∈ gcidTail, isLocalChar c = true) c hc3
  case _ hne =>
    cases hm

/-- Every character of a client-secret-shaped string is a local-part
character. -/
theorem secretShape_chars (u : List Char) (h : isSecretShape u = true) :
    ∀ c ∈ u, isLocalChar c = true := by
  unfold isSecretShape at h
  simp only [Bool.and_eq_true] at h
  obtain ⟨⟨hp, _⟩, hall⟩ := h
  obtain ⟨r, hr⟩ := List.isPrefixOf_iff_prefix.mp hp
  have hdrop : u.drop 7 = r := by
    rw [← hr]
    exact List.drop_left gsecHead r
  intro c hc
  rw [← hr] at hc
  rcases List.mem_append.mp hc with hc1 | hc1
  · exact (by decide : ∀ c ∈ gsecHead, isLocalChar c = true) c hc1
  · rw [← hdrop] at hc1
    rw [List.all_eq_true] at hall
    exact localChar_of_secretChar (hall c hc1)

/-- Characters an email match (or the protected address) can consist of. -/
def emailActive (c : Char) : Bool := isLocalChar c || c == '@'


/-- A literal matcher is blocked when the head characters differ. -/
theorem tryLit_head_blocked (h0 : Char) (lt : List Char) (c : Char) (rest : List Char)
    (hne : ¬ h0 = c) : tryLit (h0 :: lt) (c :: rest) = none := by
  unfold tryLit
  rw [if_neg]
  intro hp
  rw [List.isPrefixOf_iff_prefix] at hp
  obtain ⟨t, ht⟩ := hp
  rw [List.cons_append] at ht
  injection ht with h1 _
  exact hne h1

/-- A literal matcher matches its own literal, consuming it entirely. -/
theorem tryLit_self (lit y : List Char) :
    tryLit lit (lit ++ y) = some lit.length := by
  unfold tryLit
  rw [if_pos (List.isPrefixOf_iff_prefix.mpr ⟨y, rfl⟩)]

/-- The email matcher is blocked at a non-local head character. -/
theorem tryEmail_head_blocked (p : Option Char) (c : Char) (rest : List Char)
    (hc : isLocalChar c = false) : tryEmail p (c :: rest) = none := by
  unfold tryEmail
  simp only []
  rw [if_pos (by simp [hc])]

/-- The email matcher never fires on text without `@`. -/
theorem tryEmail_none_of_noAt (p : Option Char) : ∀ (s : List Char),
    (('@' : Char) ∉ s) → tryEmail p s = none
  | [], _ => rfl
  | c :: s', h => by
    unfold tryEmail
    simp only []
    by_cases h1 : (!isLocalChar c) = true
    · rw [if_pos h1]
    rw [if_neg h1]
    by_cases h2 : (!wordBoundary p c) = true
    · rw [if_pos h2]
    rw [if_neg h2]
    cases hdl : (c :: s').drop (runLen isLocalChar (c :: s')) with
    | nil => rfl
    | cons a rest2 =>
      have ha : ¬ a = '@' := by
        intro haa
        apply h
        subst haa
        have hmem : ('@' : Char) ∈ (c :: s').drop (runLen isLocalChar (c :: s')) := by
          rw [hdl]
          simp
        exact List.drop_subset _ _ hmem
      simp only []
      rw [if_neg (by simp [ha])]

/-- The email matcher fails on a local-character run after which the text
ends or continues with a character that is neither local nor `@`. -/
theorem tryEmail_run_none (p : Option Char) (u y : List Char)
    (hu : ∀ c ∈ u, isLocalChar c = true)
    (hy : ∀ c ∈ y.take 1, isLocalChar c = false ∧ ¬ c = '@') :
    tryEmail p (u ++ y) = none := by
  cases u with
  | nil =>
    cases y with
    | nil => rfl
    | cons y0 y' =>
      exact tryEmail_head_blocked p y0 y' (hy y0 (by simp)).1
  | cons c u' =>
    unfold tryEmail
    simp only [List.cons_append]
    by_cases h1 : (!isLocalChar c) = true
    · rw [if_pos h1]
    rw [if_neg h1]
    by_cases h2 : (!wordBoundary p c) = true
    · rw [if_pos h2]
    rw [if_neg h2]
    have hrun : runLen isLocalChar (c :: (u' ++ y)) = (c :: u').length := by
      rw [show c :: (u' ++ y) = (c :: u') ++ y from rfl]
      exact runLen_append isLocalChar (c :: u') y hu (fun d hd => (hy d hd).1)
    rw [hrun]
    have hdrop : (c :: (u' ++ y)).drop (c :: u').length = y := by
      rw [show c :: (u' ++ y) = (c :: u') ++ y from rfl]
      exact List.drop_left (c :: u') y
    rw [hdrop]
    cases y with
    | nil => rfl
    | cons y0 y' =>
      simp only []
      rw [if_neg (by simp [(hy y0 (by simp)).2])]

/-- The email matcher fails on a local run leading to `@` followed by an
allow-listed domain: the negative lookahead hits. -/
theorem tryEmail_lookahead_none (p : Option Char) (u d y : List Char)
    (hu : ∀ c ∈ u, isLocalChar c = true) (hd : d ∈ allowDoms) :
    tryEmail p (u ++ '@' :: (d ++ y)) = none := by
  cases u with
  | nil =>
    exact tryEmail_head_blocked p '@' (d ++ y) (by decide)
  | cons c u' =>
    unfold tryEmail
    simp only [List.cons_append]
    by_cases h1 : (!isLocalChar c) = true
    · rw [if_pos h1]
    rw [if_neg h1]
    by_cases h2 : (!wordBoundary p c) = true
    · rw [if_pos h2]
    rw [if_neg h2]
    have hrun : runLen isLocalChar (c :: (u' ++ '@' :: (d ++ y))) = (c :: u').length := by
      rw [show c :: (u' ++ '@' :: (d ++ y)) = (c :: u') ++ '@' :: (d ++ y) from rfl]
      exact runLen_append isLocalChar (c :: u') ('@' :: (d ++ y)) hu
        (by intro ch hch; simp at hch; subst hch; decide)
    rw [hrun]
    have hdrop : (c :: (u' ++ '@' :: (d ++ y))).drop (c :: u').length =
        '@' :: (d ++ y) := by
      rw [show c :: (u' ++ '@' :: (d ++ y)) = (c :: u') ++ '@' :: (d ++ y) from rfl]
      exact List.drop_left (c :: u') ('@' :: (d ++ y))
    rw [hdrop]
    simp only []
    rw [if_pos (by decide)]
    have hhit : lookaheadHit (d ++ y) = true := by
      unfold lookaheadHit
      rw [List.any_eq_true]
      exact ⟨d, hd, List.isPrefixOf_iff_prefix.mpr ⟨y, rfl⟩⟩
    rw [if_pos hhit]

/-- A suffix of a concatenation is a suffix of the right part, or the
right part extended by a suffix of the left part. -/
theorem suffix_append_cases {u x m : List Char} (h : u <:+ x ++ m) :
    u <:+ m ∨ ∃ x', x' <:+ x ∧ u = x' ++ m := by
  obtain ⟨p, hp⟩ := h
  have hlen : p.length + u.length = x.length + m.length := by
    have hx := congrArg List.length hp
    rw [List.length_append, List.length_append] at hx
    omega
  have hu : u = x.drop p.length ++ m.drop (p.length - x.length) := by
    have h1 : u = (p ++ u).drop p.length := (List.drop_left p u).symm
    rw [hp, List.drop_append_eq_append_drop] at h1
    exact h1
  by_cases hc : x.length ≤ p.length
  · left
    rw [hu, List.drop_eq_nil_of_le hc, List.nil_append]
    exact List.drop_suffix _ m
  · right
    refine ⟨x.drop p.length, List.drop_suffix _ x, ?_⟩
    rw [hu, show p.length - x.length = 0 from by omega, List.drop_zero]

/-- A pass is the identity when every character of the input blocks the
matcher as a head character. -/
theorem scanRepl_id_chars (try_ : Option Char → List Char → Option Nat) (repl : List Char)
    (B : Char → Bool)
    (hB : ∀ (p : Option Char) (c : Char) (rest : List Char), B c = true →
      try_ p (c :: rest) = none) :
    ∀ (s : List Char) (prev : Option Char), (∀ c ∈ s, B c = true) →
      scanRepl try_ repl prev s = s
  | [], _, _ => rfl
  | c :: rest, prev, h => by
    rw [scanRepl_cons, hB prev c rest (h c (by simp))]
    exact congrArg _ (scanRepl_id_chars try_ repl B hB rest (some c)
      (fun d hd => h d (by simp [hd])))

/-- The hard-coded address cannot occur inside an allow-listed address
`l@d`: its `@` would have to align with the unique `@`, forcing the
domain to start with `anthropic.com`, which no allow-listed domain does. -/
theorem noreply_not_infix_allow (l d : List Char)
    (hl : ∀ c ∈ l, isLocalChar c = true) (hd : d ∈ allowDoms) :
    ¬ (noreplyL <:+: (l ++ '@' :: d)) := by
  rintro ⟨p, q, hpq⟩
  have hat : (p ++ noreplyL ++ q).get? (p.length + 7) = some '@' := by
    rw [List.append_assoc, List.get?_append_right (by omega)]
    rw [show p.length + 7 - p.length = 7 from by omega]
    rw [List.get?_append (by decide)]
    decide
  rw [hpq] at hat
  have hdall : ∀ c ∈ d, ¬ c = '@' := by
    simp only [allowDoms, List.mem_cons, List.not_mem_nil, or_false] at hd
    rcases hd with rfl | rfl | rfl <;> decide
  by_cases h1 : p.length + 7 < l.length
  · rw [List.get?_append h1] at hat
    exact absurd (hl '@' (List.get?_mem hat)) (by decide)
  by_cases h2 : l.length < p.length + 7
  · rw [List.get?_append_right (by omega)] at hat
    rw [show p.length + 7 - l.length = (p.length + 7 - l.length - 1) + 1 from by omega] at hat
    rw [List.get?_cons_succ] at hat
    exact absurd rfl (hdall '@' (List.get?_mem hat))
  have hieq : p.length + 7 = l.length := by omega
  have hdropL : (p ++ noreplyL ++ q).drop (p.length + 8) =
      "anthropic.com".toList ++ q := by
    rw [List.append_assoc]
    rw [show p.length + 8 = p.length + 8 from rfl, List.drop_append 8]
    rw [List.drop_append_eq_append_drop]
    rw [show noreplyL.drop 8 = "anthropic.com".toList from rfl,
      show (8 : Nat) - noreplyL.length = 0 from by decide, List.drop_zero]
  have hdropR : (l ++ '@' :: d).drop (p.length + 8) = d := by
    rw [show p.length + 8 = l.length + 1 from by omega]
    rw [List.drop_append 1]
    rfl
  rw [hpq] at hdropL
  have hdq : d = "anthropic.com".toList ++ q := hdropR.symm.trans hdropL
  have hlen := congrArg List.length hdq
  rw [List.length_append] at hlen
  have h13 : ("anthropic.com".toList).length = 13 := by decide
  have hdlen : d.length ≤ 11 := by
    simp only [allowDoms, List.mem_cons, List.not_mem_nil, or_false] at hd
    rcases hd with rfl | rfl | rfl <;> decide
  omega

/-- The protect pass is blocked at inert characters. -/
theorem tryLit_nr_blocked (p : Option Char) (c : Char) (rest : List Char)
    (hc : inertChar c = true) : tryLit noreplyL (c :: rest) = none :=
  tryLit_head_blocked 'n' ("oreply@anthropic.com".toList) c rest
    (fun he => by
      have hspec := (inertChar_spec hc).1
      rw [← he] at hspec
      exact absurd hspec (by decide))

/-- The restore pass is blocked at every character other than `<`. -/
theorem tryLit_sent_blocked (p : Option Char) (c : Char) (rest : List Char)
    (hc : ¬ c = '<') : tryLit sentinelL (c :: rest) = none :=
  tryLit_head_blocked '<' ("<<PROTECTED_NOREPLY>>>".toList) c rest
    (fun he => hc he.symm)

/-- Characters of the allow-listed domains are local characters. -/
theorem allowDom_chars : ∀ d ∈ allowDoms, ∀ c ∈ d, isLocalChar c = true := by
  decide

/-- The allow-listed domains contain no `<`. -/
theorem allowDom_no_lt : ∀ d ∈ allowDoms, ∀ c ∈ d, ¬ c = '<' := by
  decide

/-- **C1** (amended): an allow-listed address — the hard-coded
`noreply@anthropic.com` or any `l@d` with `d` an allow-listed domain —
survives redaction unchanged whenever the surrounding text consists of
inert characters (outside the email local-part class, not `@`, not `<`)
and the address itself contains no OAuth-pattern-shaped substring.  The
inertness condition is the correction forced by `c1_counterexample`,
where an adjacent email's greedy match consumed the allow-listed
address's local part. -/
theorem c1_amended (x y a : List Char)
    (hx : ∀ c ∈ x, inertChar c = true) (hy : ∀ c ∈ y, inertChar c = true)
    (ha : a = noreplyL ∨
      ∃ l d, a = l ++ '@' :: d ∧ l ≠ [] ∧ (∀ c ∈ l, isLocalChar c = true) ∧ d ∈ allowDoms)
    (hg : hasSubSat isGcidShape a = false)
    (hsec : hasSubSat isSecretShape a = false) :
    redactL (x ++ (a ++ y)) = x ++ (a ++ y) := by
  have hxloc : ∀ c ∈ x, isLocalChar c = false := fun c hc => (inertChar_spec (hx c hc)).1
  have hyloc : ∀ c ∈ y, isLocalChar c = false := fun c hc => (inertChar_spec (hy c hc)).1
  have p1 : scanRepl (fun _ s => tryGcid s) gcidRepl none (x ++ (a ++ y)) =
      x ++ (a ++ y) :=
    scanRepl_frame _ gcidRepl isGcidShape isLocalChar
      (fun _ u n h => ⟨(tryGcid_shape u n h).2.1, (tryGcid_shape u n h).1⟩)
      gcidShape_chars (by decide) x a y none hxloc hyloc hg
  have p2 : scanRepl (fun _ s => trySecret s) gsecRepl none (x ++ (a ++ y)) =
      x ++ (a ++ y) :=
    scanRepl_frame _ gsecRepl isSecretShape isLocalChar
      (fun _ u n h => ⟨(trySecret_shape u n h).2.1, (trySecret_shape u n h).1⟩)
      secretShape_chars (by decide) x a y none hxloc hyloc hsec
  show scanRepl (fun _ s => tryLit sentinelL s) noreplyL none
      (scanRepl tryEmail emailRepl none
        (scanRepl (fun _ s => tryLit noreplyL s) sentinelL none
          (scanRepl (fun _ s => trySecret s) gsecRepl none
            (scanRepl (fun _ s => tryGcid s) gcidRepl none (x ++ (a ++ y)))))) =
      x ++ (a ++ y)
  rw [p1, p2]
  rcases ha with rfl | ⟨l, d, rfl, _, hll, hdd⟩
  · -- the hard-coded address: protect, no email match, restore
    have p3 : scanRepl (fun _ s => tryLit noreplyL s) sentinelL none
        (x ++ (noreplyL ++ y)) = x ++ (sentinelL ++ y) := by
      rw [scanRepl_skip _ _ inertChar (fun p c rest hc => tryLit_nr_blocked p c rest hc)
        x (noreplyL ++ y) none hx]
      have hstep : scanRepl (fun _ s => tryLit noreplyL s) sentinelL
          (prevAfter none x) (noreplyL ++ y) =
          sentinelL ++ scanRepl (fun _ s => tryLit noreplyL s) sentinelL (some 'm') y := by
        rw [show noreplyL ++ y = 'n' :: ("oreply@anthropic.com".toList ++ y) from rfl,
          scanRepl_cons]
        have hm : tryLit noreplyL ('n' :: ("oreply@anthropic.com".toList ++ y)) =
            some 21 := tryLit_self noreplyL y
        rw [hm]
        rfl
      rw [hstep]
      rw [scanRepl_id_chars _ _ inertChar (fun p c rest hc => tryLit_nr_blocked p c rest hc)
        y (some 'm') hy]
    rw [p3]
    have p4 : scanRepl tryEmail emailRepl none (x ++ (sentinelL ++ y)) =
        x ++ (sentinelL ++ y) := by
      apply scanRepl_id_all
      intro p u hu
      apply tryEmail_none_of_noAt
      intro hmem
      have hmem2 : ('@' : Char) ∈ x ++ (sentinelL ++ y) := hu.subset hmem
      rcases List.mem_append.mp hmem2 with hc | hc
      · exact absurd (inertChar_spec (hx '@' hc)).2.1 (by decide)
      rcases List.mem_append.mp hc with hc2 | hc2
      · exact absurd hc2 (by decide)
      · exact absurd (inertChar_spec (hy '@' hc2)).2.1 (by decide)
    rw [p4]
    have hB5 : ∀ (p : Option Char) (c : Char) (rest : List Char), inertChar c = true →
        tryLit sentinelL (c :: rest) = none := fun p c rest hc =>
      tryLit_sent_blocked p c rest (fun he => by
        have hspec := (inertChar_spec hc).2.2
        rw [he] at hspec
        exact absurd hspec (by decide))
    rw [scanRepl_skip _ _ inertChar hB5 x (sentinelL ++ y) none hx]
    have hstep5 : scanRepl (fun _ s => tryLit sentinelL s) noreplyL
        (prevAfter none x) (sentinelL ++ y) =
        noreplyL ++ scanRepl (fun _ s => tryLit sentinelL s) noreplyL (some '>') y := by
      rw [show sentinelL ++ y = '<' :: ("<<PROTECTED_NOREPLY>>>".toList ++ y) from rfl,
        scanRepl_cons]
      have hm : tryLit sentinelL ('<' :: ("<<PROTECTED_NOREPLY>>>".toList ++ y)) =
          some 23 := tryLit_self sentinelL y
      rw [hm]
      rfl
    rw [hstep5]
    rw [scanRepl_id_chars _ _ inertChar hB5 y (some '>') hy]
  · -- an allow-listed `l@d`
    have hdloc : ∀ c ∈ d, isLocalChar c = true := allowDom_chars d hdd
    have p3 : scanRepl (fun _ s => tryLit noreplyL s) sentinelL none
        (x ++ ((l ++ '@' :: d) ++ y)) = x ++ ((l ++ '@' :: d) ++ y) := by
      apply scanRepl_frame _ sentinelL (fun u => u == noreplyL) emailActive
      · intro p u n h
        obtain ⟨hn, htk⟩ := tryLit_some noreplyL u n h
        subst hn
        refine ⟨by decide, ?_⟩
        rw [htk]
        simp
      · intro u hP c hc
        have hu : u = noreplyL := eq_of_beq hP
        subst hu
        exact (by decide : ∀ c ∈ noreplyL, emailActive c = true) c hc
      · decide
      · intro c hc
        have hspec := inertChar_spec (hx c hc)
        simp [emailActive, hspec.1, hspec.2.1]
      · intro c hc
        have hspec := inertChar_spec (hy c hc)
        simp [emailActive, hspec.1, hspec.2.1]
      · cases hq : hasSubSat (fun u => u == noreplyL) (l ++ '@' :: d) with
        | false => rfl
        | true =>
          exfalso
          obtain ⟨u, hinf, hbeq⟩ := infix_of_hasSubSat _ _ hq
          rw [show u = noreplyL from eq_of_beq hbeq] at hinf
          exact noreply_not_infix_allow l d hll hdd hinf
    rw [p3]
    have p4 : scanRepl tryEmail emailRepl none (x ++ ((l ++ '@' :: d) ++ y)) =
        x ++ ((l ++ '@' :: d) ++ y) := by
      have hnorm : x ++ ((l ++ '@' :: d) ++ y) = x ++ (l ++ '@' :: (d ++ y)) := by
        simp
      rw [hnorm]
      apply scanRepl_id_all
      intro p u hu
      rcases suffix_append_cases hu with hu1 | ⟨x', hx', rfl⟩
      · rcases suffix_append_cases hu1 with hu2 | ⟨l', hl', rfl⟩
        · rcases List.suffix_cons_iff.mp hu2 with rfl | hu3
          · exact tryEmail_head_blocked p '@' _ (by decide)
          · rcases suffix_append_cases hu3 with hu4 | ⟨d', hd', rfl⟩
            · cases u with
              | nil => rfl
              | cons c u' =>
                exact tryEmail_head_blocked p c u'
                  (hyloc c (hu4.subset (by simp)))
            · apply tryEmail_run_none
              · intro c hc
                exact hdloc c (hd'.subset hc)
              · intro c hc
                have hcy : c ∈ y := List.take_subset 1 y hc
                have hspec := inertChar_spec (hy c hcy)
                refine ⟨hspec.1, fun he => ?_⟩
                rw [he] at hspec
                exact absurd hspec.2.1 (by decide)
        · exact tryEmail_lookahead_none p l' d y (fun c hc => hll c (hl'.subset hc)) hdd
      · cases x' with
        | nil =>
          rw [List.nil_append]
          exact tryEmail_lookahead_none p l d y hll hdd
        | cons c x'' =>
          exact tryEmail_head_blocked p c (x'' ++ (l ++ '@' :: (d ++ y)))
            (hxloc c (hx'.subset (by simp)))
    rw [p4]
    apply scanRepl_id_chars _ _ (fun c => !(c == '<'))
      (fun p c rest hc => tryLit_sent_blocked p c rest (by simpa using hc))
    intro c hc
    suffices hne : ¬ c = '<' by simp [hne]
    rcases List.mem_append.mp hc with hc1 | hc1
    · intro he
      have hspec := (inertChar_spec (hx c hc1)).2.2
      rw [he] at hspec
      exact absurd hspec (by decide)
    rcases List.mem_append.mp hc1 with hc2 | hc2
    · rcases List.mem_append.mp hc2 with hc3 | hc3
      · intro he
        have hl3 := hll c hc3
        rw [he] at hl3
        exact absurd hl3 (by decide)
      · rcases List.mem_cons.mp hc3 with rfl | hc4
        · decide
        · exact allowDom_no_lt d hdd c hc4
    · intro he
      have hspec := (inertChar_spec (hy c hc2)).2.2
      rw [he] at hspec
      exact absurd hspec (by decide)

/-- Witness for the amended C1: `foo@example.com` surrounded by inert
text survives redaction. -/
theorem c1_amended_witness :
    (∀ c ∈ ", ".toList, inertChar c = true) ∧
    (∀ c ∈ "!".toList, inertChar c = true) ∧
    ("foo@example.com".toList = noreplyL ∨
      ∃ l d, "foo@example.com".toList = l ++ '@' :: d ∧ l ≠ [] ∧
        (∀ c ∈ l, isLocalChar c = true) ∧ d ∈ allowDoms) ∧
    hasSubSat isGcidShape "foo@example.com".toList = false ∧
    hasSubSat isSecretShape "foo@example.com".toList = false ∧
    redactL (", ".toList ++ ("foo@example.com".toList ++ "!".toList)) =
      ", ".toList ++ ("foo@example.com".toList ++ "!".toList) :=
  ⟨by decide, by decide,
   Or.inr ⟨"foo".toList, "example.com".toList, by decide, by decide, by decide, by decide⟩,
   by decide, by decide,
   c1_amended ", ".toList "!".toList "foo@example.com".toList (by decide) (by decide)
     (Or.inr ⟨"foo".toList, "example.com".toList, by decide, by decide, by decide, by decide⟩)
     (by decide) (by decide)⟩

/-- Non-local characters are not word characters. -/
theorem word_false_of_local_false {c : Char} (h : isLocalChar c = false) :
    isWordChar c = false := by
  cases hw : isWordChar c
  · rfl
  · rw [localChar_of_word hw] at h
    cases h

/-- Letters are domain characters. -/
theorem domChar_of_alpha {c : Char} (h : c.isAlpha = true) : isDomChar c = true := by
  simp [isDomChar, h]

/-- The scanning context after an all-inert prefix is either the initial
`none` or one of the prefix characters. -/
theorem prevAfter_none_mem (x : List Char) :
    prevAfter none x = none ∨ ∃ p ∈ x, prevAfter none x = some p := by
  unfold prevAfter
  cases hx : x.reverse with
  | nil => left; rfl
  | cons c r =>
    right
    refine ⟨c, ?_, rfl⟩
    rw [← List.mem_reverse, hx]
    simp

/-- The email matcher consumes exactly an email whose domain fails the
negative lookahead, when the email is followed by inert text: the local
run stops at `@`, the domain run stops at the inert text, the greedy
backtracking settles on the final dot, and the trailing `\b` holds. -/
theorem tryEmail_exact (p : Option Char) (c0 : Char) (l' m T y : List Char)
    (hword : wordBoundary p c0 = true)
    (hl : ∀ c ∈ c0 :: l', isLocalChar c = true)
    (hmne : m ≠ []) (hmall : ∀ c ∈ m, isDomChar c = true)
    (hT : ∀ c ∈ T, Char.isAlpha c = true) (hT2 : 2 ≤ T.length)
    (hy : ∀ c ∈ y, inertChar c = true)
    (hlk : lookaheadHit (m ++ '.' :: (T ++ y)) = false) :
    tryEmail p ((c0 :: l') ++ '@' :: ((m ++ '.' :: T) ++ y)) =
      some ((c0 :: l').length + 1 + m.length + 1 + T.length) := by
  have hyblock : ∀ c ∈ y.take 1, isLocalChar c = false :=
    fun c hc => (inertChar_spec (hy c (List.take_subset 1 y hc))).1
  have hynword : ∀ c ∈ y.take 1, isWordChar c = false :=
    fun c hc => word_false_of_local_false (hyblock c hc)
  have hynalpha : ∀ c ∈ y.take 1, Char.isAlpha c = false := by
    intro c hc
    cases hal : c.isAlpha
    · rfl
    · have hb := hyblock c hc
      rw [localChar_of_alpha hal] at hb
      cases hb
  unfold tryEmail
  simp only [List.cons_append]
  rw [if_neg (by simp [hl c0 (by simp)])]
  rw [if_neg (by simp [hword])]
  have hrun : runLen isLocalChar (c0 :: (l' ++ '@' :: ((m ++ '.' :: T) ++ y))) =
      (c0 :: l').length := by
    rw [show c0 :: (l' ++ '@' :: ((m ++ '.' :: T) ++ y)) =
      (c0 :: l') ++ '@' :: ((m ++ '.' :: T) ++ y) from rfl]
    exact runLen_append isLocalChar _ _ hl
      (by intro ch hch; simp at hch; subst hch; decide)
  have hdrop : (c0 :: (l' ++ '@' :: ((m ++ '.' :: T) ++ y))).drop (c0 :: l').length =
      '@' :: ((m ++ '.' :: T) ++ y) := by
    rw [show c0 :: (l' ++ '@' :: ((m ++ '.' :: T) ++ y)) =
      (c0 :: l') ++ '@' :: ((m ++ '.' :: T) ++ y) from rfl]
    exact List.drop_left _ _
  simp only [hrun, hdrop]
  rw [if_pos (by decide)]
  have hnorm : (m ++ '.' :: T) ++ y = m ++ '.' :: (T ++ y) := by simp
  rw [hnorm]
  rw [if_neg (by simp [hlk])]
  have hmdom : ∀ c ∈ m ++ '.' :: T, isDomChar c = true := by
    intro c hc
    rcases List.mem_append.mp hc with h1 | h1
    · exact hmall c h1
    · rcases List.mem_cons.mp h1 with rfl | h2
      · decide
      · exact domChar_of_alpha (hT c h2)
  have hmm2 : runLen isDomChar (m ++ '.' :: (T ++ y)) = m.length + 1 + T.length := by
    rw [← hnorm]
    rw [runLen_append isDomChar (m ++ '.' :: T) y hmdom
      (by
        intro ch hch
        cases hdc : isDomChar ch
        · rfl
        · have hb := hyblock ch hch
          rw [localChar_of_dom hdc] at hb
          cases hb)]
    simp only [List.length_append, List.length_cons]
    omega
  simp only [hmm2]
  have hTrun : runLen Char.isAlpha (T ++ y) = T.length :=
    runLen_append Char.isAlpha T y hT hynalpha
  refine descFind_eq _ _ m.length _ (List.length_pos.mpr hmne) (by omega) ?_ ?_
  · have hdropm : (m ++ '.' :: (T ++ y)).drop m.length = '.' :: (T ++ y) :=
      List.drop_left m _
    simp only [hdropm]
    rw [if_pos (by decide)]
    simp only [hTrun]
    have htld : tldBoundary (m ++ '.' :: (T ++ y)) (m.length + 1 + T.length) = true := by
      unfold tldBoundary
      have hdt : (m ++ '.' :: (T ++ y)).drop (m.length + 1 + T.length) = y := by
        rw [← hnorm]
        have hlen : (m ++ '.' :: T).length = m.length + 1 + T.length := by
          simp only [List.length_append, List.length_cons]
          omega
        rw [← hlen]
        exact List.drop_left _ _
      rw [hdt]
      cases y with
      | nil => rfl
      | cons y0 y' =>
        simp only []
        rw [hynword y0 (by simp)]
        rfl
    rw [if_pos ⟨hT2, htld⟩]
  · intro k hk1 hk2
    have hdropk : (m ++ '.' :: (T ++ y)).drop k = (T ++ y).drop (k - m.length - 1) := by
      rw [List.drop_append_eq_append_drop]
      rw [List.drop_eq_nil_of_le (by omega), List.nil_append]
      rw [show k - m.length = (k - m.length - 1) + 1 from by omega]
      rfl
    simp only [hdropk]
    cases hds : (T ++ y).drop (k - m.length - 1) with
    | nil => rfl
    | cons dt rs =>
      simp only []
      rw [if_neg]
      intro hdt
      have hdt' : dt = '.' := by rwa [beq_iff_eq] at hdt
      subst hdt'
      have hmem : ('.' : Char) ∈ T ++ y := by
        have hmm3 : ('.' : Char) ∈ (T ++ y).drop (k - m.length - 1) := by
          rw [hds]
          simp
        exact List.drop_subset _ _ hmm3
      rcases List.mem_append.mp hmem with h1 | h1
      · exact absurd (hT '.' h1) (by decide)
      · exact absurd ((inertChar_spec (hy '.' h1)).1) (by decide)

/-- **C2** (amended): an email-shaped substring `l@m.T` (local part `l`
starting with a word character, domain part `m`, top-level label `T` of
at least two letters) surrounded by inert text is replaced by the
placeholder exactly when the text after its `@` does not *begin with* one
of the allow-listed domains — the negative lookahead is a prefix test,
not an equality test, which is the correction forced by
`c2_counterexample`.  The email itself must be free of OAuth-shaped
substrings and of the hard-coded address. -/
theorem c2_amended (x y : List Char) (c0 : Char) (l' m T : List Char)
    (hx : ∀ c ∈ x, inertChar c = true) (hy : ∀ c ∈ y, inertChar c = true)
    (hc0 : isWordChar c0 = true)
    (hl : ∀ c ∈ c0 :: l', isLocalChar c = true)
    (hmne : m ≠ []) (hmall : ∀ c ∈ m, isDomChar c = true)
    (hT : ∀ c ∈ T, Char.isAlpha c = true) (hT2 : 2 ≤ T.length)
    (hlk : lookaheadHit (m ++ '.' :: (T ++ y)) = false)
    (hg : hasSubSat isGcidShape ((c0 :: l') ++ '@' :: (m ++ '.' :: T)) = false)
    (hsec : hasSubSat isSecretShape ((c0 :: l') ++ '@' :: (m ++ '.' :: T)) = false)
    (hnr : hasSubSat (fun u => u == noreplyL)
      ((c0 :: l') ++ '@' :: (m ++ '.' :: T)) = false) :
    redactL (x ++ (((c0 :: l') ++ '@' :: (m ++ '.' :: T)) ++ y)) =
      x ++ (emailRepl ++ y) := by
  have hxloc : ∀ c ∈ x, isLocalChar c = false := fun c hc => (inertChar_spec (hx c hc)).1
  have p1 : scanRepl (fun _ s => tryGcid s) gcidRepl none
      (x ++ (((c0 :: l') ++ '@' :: (m ++ '.' :: T)) ++ y)) =
      x ++ (((c0 :: l') ++ '@' :: (m ++ '.' :: T)) ++ y) :=
    scanRepl_frame _ gcidRepl isGcidShape isLocalChar
      (fun _ u n h => ⟨(tryGcid_shape u n h).2.1, (tryGcid_shape u n h).1⟩)
      gcidShape_chars (by decide) x _ y none hxloc
      (fun c hc => (inertChar_spec (hy c hc)).1) hg
  have p2 : scanRepl (fun _ s => trySecret s) gsecRepl none
      (x ++ (((c0 :: l') ++ '@' :: (m ++ '.' :: T)) ++ y)) =
      x ++ (((c0 :: l') ++ '@' :: (m ++ '.' :: T)) ++ y) :=
    scanRepl_frame _ gsecRepl isSecretShape isLocalChar
      (fun _ u n h => ⟨(trySecret_shape u n h).2.1, (trySecret_shape u n h).1⟩)
      secretShape_chars (by decide) x _ y none hxloc
      (fun c hc => (inertChar_spec (hy c hc)).1) hsec
  have p3 : scanRepl (fun _ s => tryLit noreplyL s) sentinelL none
      (x ++ (((c0 :: l') ++ '@' :: (m ++ '.' :: T)) ++ y)) =
      x ++ (((c0 :: l') ++ '@' :: (m ++ '.' :: T)) ++ y) := by
    apply scanRepl_frame _ sentinelL (fun u => u == noreplyL) emailActive
    · intro p u n h
      obtain ⟨hn, htk⟩ := tryLit_some noreplyL u n h
      subst hn
      refine ⟨by decide, ?_⟩
      rw [htk]
      simp
    · intro u hP c hc
      have hu : u = noreplyL := eq_of_beq hP
      subst hu
      exact (by decide : ∀ c ∈ noreplyL, emailActive c = true) c hc
    · decide
    · intro c hc
      have hspec := inertChar_spec (hx c hc)
      simp [emailActive, hspec.1, hspec.2.1]
    · intro c hc
      have hspec := inertChar_spec (hy c hc)
      simp [emailActive, hspec.1, hspec.2.1]
    · exact hnr
  show scanRepl (fun _ s => tryLit sentinelL s) noreplyL none
      (scanRepl tryEmail emailRepl none
        (scanRepl (fun _ s => tryLit noreplyL s) sentinelL none
          (scanRepl (fun _ s => trySecret s) gsecRepl none
            (scanRepl (fun _ s => tryGcid s) gcidRepl none
              (x ++ (((c0 :: l') ++ '@' :: (m ++ '.' :: T)) ++ y)))))) =
      x ++ (emailRepl ++ y)
  rw [p1, p2, p3]
  have hB4 : ∀ (p : Option Char) (c : Char) (rest : List Char), inertChar c = true →
      tryEmail p (c :: rest) = none :=
    fun p c rest hc => tryEmail_head_blocked p c rest (inertChar_spec hc).1
  have p4 : scanRepl tryEmail emailRepl none
      (x ++ (((c0 :: l') ++ '@' :: (m ++ '.' :: T)) ++ y)) =
      x ++ (emailRepl ++ y) := by
    rw [scanRepl_skip tryEmail emailRepl inertChar hB4 x _ none hx]
    congr 1
    have hword : wordBoundary (prevAfter none x) c0 = true := by
      rcases prevAfter_none_mem x with hpa | ⟨pp, hpp, hpa⟩
      · rw [hpa]
        exact hc0
      · rw [hpa]
        unfold wordBoundary
        simp only []
        rw [word_false_of_local_false (inertChar_spec (hx pp hpp)).1, hc0]
        rfl
    have heq : ((c0 :: l') ++ '@' :: (m ++ '.' :: T)) ++ y =
        c0 :: (l' ++ '@' :: ((m ++ '.' :: T) ++ y)) := by simp
    rw [heq, scanRepl_cons]
    have hm := tryEmail_exact (prevAfter none x) c0 l' m T y hword hl hmne hmall
      hT hT2 hy hlk
    simp only [List.cons_append] at hm
    rw [show (c0 :: l').length + 1 + m.length + 1 + T.length =
        l'.length + 1 + m.length + 1 + T.length + 1 from by
      simp only [List.length_cons]
      omega] at hm
    rw [hm]
    simp only []
    have hdroprest : (l' ++ '@' :: ((m ++ '.' :: T) ++ y)).drop
        (l'.length + 1 + m.length + 1 + T.length) = y := by
      have hfold : l' ++ '@' :: ((m ++ '.' :: T) ++ y) =
          (l' ++ '@' :: (m ++ '.' :: T)) ++ y := by simp
      rw [hfold]
      have hlen : (l' ++ '@' :: (m ++ '.' :: T)).length =
          l'.length + 1 + m.length + 1 + T.length := by
        simp only [List.length_append, List.length_cons]
        omega
      rw [← hlen]
      exact List.drop_left _ _
    rw [hdroprest]
    congr 1
    exact scanRepl_id_chars tryEmail emailRepl inertChar hB4 y _ hy
  rw [p4]
  apply scanRepl_id_chars _ _ (fun c => !(c == '<'))
    (fun p c rest hc => tryLit_sent_blocked p c rest (by simpa using hc))
  intro c hc
  suffices hne : ¬ c = '<' by simp [hne]
  rcases List.mem_append.mp hc with hc1 | hc1
  · intro he
    have hspec := (inertChar_spec (hx c hc1)).2.2
    rw [he] at hspec
    exact absurd hspec (by decide)
  rcases List.mem_append.mp hc1 with hc2 | hc2
  · exact (by decide : ∀ c ∈ emailRepl, ¬ c = '<') c hc2
  · intro he
    have hspec := (inertChar_spec (hy c hc2)).2.2
    rw [he] at hspec
    exact absurd hspec (by decide)

/-- Witness for the amended C2: `foo@gmail.com` in inert context is
replaced by the placeholder. -/
theorem c2_amended_witness :
    (∀ c ∈ "(".toList, inertChar c = true) ∧
    (∀ c ∈ ")".toList, inertChar c = true) ∧
    isWordChar 'f' = true ∧
    (∀ c ∈ 'f' :: "oo".toList, isLocalChar c = true) ∧
    "gmail".toList ≠ [] ∧
    (∀ c ∈ "gmail".toList, isDomChar c = true) ∧
    (∀ c ∈ "com".toList, Char.isAlpha c = true) ∧
    2 ≤ "com".toList.length ∧
    lookaheadHit ("gmail".toList ++ '.' :: ("com".toList ++ ")".toList)) = false ∧
    hasSubSat isGcidShape (('f' :: "oo".toList) ++ '@' ::
      ("gmail".toList ++ '.' :: "com".toList)) = false ∧
    hasSubSat isSecretShape (('f' :: "oo".toList) ++ '@' ::
      ("gmail".toList ++ '.' :: "com".toList)) = false ∧
    hasSubSat (fun u => u == noreplyL) (('f' :: "oo".toList) ++ '@' ::
      ("gmail".toList ++ '.' :: "com".toList)) = false ∧
    redactL ("(".toList ++ ((('f' :: "oo".toList) ++ '@' ::
      ("gmail".toList ++ '.' :: "com".toList)) ++ ")".toList)) =
      "(".toList ++ (emailRepl ++ ")".toList) :=
  ⟨by decide, by decide, by decide, by decide, by decide, by decide, by decide,
   by decide, by decide, by decide, by decide, by decide,
   c2_amended "(".toList ")".toList 'f' "oo".toList "gmail".toList "com".toList
     (by decide) (by decide) (by decide) (by decide) (by decide) (by decide)
     (by decide) (by decide) (by decide) (by decide) (by decide) (by decide)⟩
